import Mathlib

/-!
Verification of the bingeworthy backend's cache and rating-aggregation core,
shallowly embedded from `backend/database.py` and `backend/app.py`.

Modelling conventions:
* Python strings are `List Char`; Python `float` values are exact rationals
  (`ℚ`); instants (`datetime.utcnow()`) and `timedelta`s are rationals.
  (The repo's arithmetic — scaling by 10, weighted means with weights
  2/10, 5/10, 3/10, and rounding to one decimal — is modelled exactly.)
* Python `None` used as an absent value is `Option.none`.
* JSON payloads are the inductive `Json` below; `json.dumps`/`json.loads`
  are executable Lean functions over it.
-/

namespace Bingeworthy

/-! ### String and digit helpers -/

/-- Characters Python's `str.strip()` / `float()` treat as whitespace (ASCII part). -/
def isPyWs (c : Char) : Bool :=
  [' ', '\t', '\n', '\x0d', '\x0b', '\x0c'].contains c

def isDigitCh (c : Char) : Bool := 48 ≤ c.toNat ∧ c.toNat ≤ 57

def digitVal (c : Char) : ℕ := c.toNat - 48

/-- Numeric value of a big-endian digit string. -/
def natOfDigits (l : List Char) : ℕ := l.foldl (fun a c => 10 * a + digitVal c) 0

def digitChar (d : ℕ) : Char := Char.ofNat (48 + d)

/-- Big-endian decimal digits of `n` (fuel-driven so the kernel can evaluate it). -/
def natDigitsAux : ℕ → ℕ → List Char
  | 0, _ => []
  | fuel + 1, n => if n = 0 then [] else natDigitsAux fuel (n / 10) ++ [digitChar (n % 10)]

/-- Big-endian decimal digits of a natural number (`"0"` for zero). -/
def natDigits (n : ℕ) : List Char :=
  if n = 0 then ['0'] else natDigitsAux (n + 1) n

/-- Python `str.strip()` (both ends, default whitespace). -/
def pyStrip (s : List Char) : List Char :=
  ((s.dropWhile isPyWs).reverse.dropWhile isPyWs).reverse

/-! ### A model of Python `float(str)`

Covers the decimal fragment of `float()`: optional surrounding whitespace,
optional sign, `digits[.digits]` or `.digits`, optional decimal exponent.
(`inf`/`nan` literals and digit-group underscores are outside the model;
no caller of the repo feeds them.)  The parse is kept in integer form
`(negative, mantissa, fracLen, exponent)` and injected into `ℚ` at the end. -/

/-- Parse an optional sign; returns (isNegative, rest). -/
def parseSign : List Char → Bool × List Char
  | '+' :: t => (false, t)
  | '-' :: t => (true, t)
  | s => (false, s)

/-- Mantissa part `digits[.digits]` or `.digits`; returns
`(mantissaDigitsValue, numberOfFractionDigits, rest)`. -/
def parseMantissa (s : List Char) : Option (ℕ × ℕ × List Char) :=
  let ip := s.takeWhile isDigitCh
  let r1 := s.dropWhile isDigitCh
  match r1 with
  | '.' :: r2 =>
      let fp := r2.takeWhile isDigitCh
      if ip.isEmpty ∧ fp.isEmpty then none
      else some (natOfDigits (ip ++ fp), fp.length, r2.dropWhile isDigitCh)
  | _ => if ip.isEmpty then none else some (natOfDigits ip, 0, r1)

/-- Optional exponent `([eE][+-]?digits)?`; returns (exponent, rest). -/
def parseExp (s : List Char) : Option (ℤ × List Char) :=
  match s with
  | 'e' :: t | 'E' :: t =>
      let (neg, t1) := parseSign t
      let ds := t1.takeWhile isDigitCh
      if ds.isEmpty then none
      else some ((if neg then -(natOfDigits ds : ℤ) else natOfDigits ds), t1.dropWhile isDigitCh)
  | _ => some (0, s)

/-- Integer-form parse of a Python float literal: `(negative, mantissa, scale)`
denoting `±mantissa * 10^scale`.  Kept free of `ℚ` so the kernel can
evaluate it on concrete strings. -/
def pyFloatParse (s : List Char) : Option (Bool × ℕ × ℤ) :=
  let t := pyStrip s
  let (neg, t1) := parseSign t
  match parseMantissa t1 with
  | none => none
  | some (m, fl, t2) =>
      match parseExp t2 with
      | none => none
      | some (e, t3) => if t3.isEmpty then some (neg, m, e - fl) else none

/-- The exact rational denoted by a parsed decimal. -/
def decValue (neg : Bool) (m : ℕ) (scale : ℤ) : ℚ :=
  (if neg then -(m : ℚ) else (m : ℚ)) * (10 : ℚ) ^ scale

/-- Model of Python `float(s)`: `some q` on success, `none` where `float`
raises `ValueError`. -/
def pyFloat (s : List Char) : Option ℚ :=
  (pyFloatParse s).map fun p => decValue p.1 p.2.1 p.2.2

/-! ### Rating normalizers (`backend/app.py` lines 152–180)

The three functions mirror `normalize_imdb`, `normalize_rt`,
`normalize_tmdb`.  Python raises inside the `try` blocks exactly where the
parse fails; the `except Exception` arms are the `none` results here. -/

/-- `normalize_imdb`: `'7.4/10'` → `74.0`; `None`/falsy/unparseable → `None`.
`value.split("/")[0]` is the prefix before the first `'/'`. -/
def normalize_imdb (value : Option (List Char)) : Option ℚ :=
  match value with
  | none => none
  | some s =>
      if s.isEmpty then none  -- `if not value`
      else
        match pyFloat (s.takeWhile (· ≠ '/')) with
        | some score => some (score * 10)
        | none => none

/-- `normalize_rt`: `'95%'` → `95.0`.  `value.replace("%", "").strip()`
removes every `'%'` then strips whitespace, then `float(...)`. -/
def normalize_rt (value : Option (List Char)) : Option ℚ :=
  match value with
  | none => none
  | some s =>
      if s.isEmpty then none  -- `if not value`
      else
        match pyFloat (pyStrip (s.filter (· ≠ '%'))) with
        | some q => some q
        | none => none

/-- `normalize_tmdb`: 0–10 float scaled to 0–100; `float(value)` on a float
is the identity and cannot raise. -/
def normalize_tmdb (value : Option ℚ) : Option ℚ :=
  match value with
  | none => none
  | some v => some (v * 10)

/-! ### `round(x, 1)` and the aggregator (`backend/app.py` lines 182–213) -/

/-- Round a rational to the nearest integer, ties to even (Python's `round`). -/
def roundHalfEven (q : ℚ) : ℤ :=
  if q - ⌊q⌋ = 1 / 2 then (if Even ⌊q⌋ then ⌊q⌋ else ⌊q⌋ + 1) else round q

/-- Python `round(x, 1)` on the exact-rational model. -/
def pyRound1 (q : ℚ) : ℚ := (roundHalfEven (q * 10) : ℚ) / 10

/-- Result of `aggregate_ratings`: the `{"aggregated": ..., "breakdown": ...}`
dict, with `breakdown` an insertion-ordered association list. -/
structure AggResult where
  aggregated : Option ℚ
  breakdown : List (List Char × ℚ)
  deriving DecidableEq, Repr

/-- `aggregate_ratings(tmdb_score, imdb, rt)`: weighted mean over the
sources that normalized, weights tmdb 0.2, imdb 0.5, rt 0.3. -/
def aggregate_ratings (tmdb_score : Option ℚ) (imdb rt : Option (List Char)) : AggResult :=
  let tmdb_n := normalize_tmdb tmdb_score
  let imdb_n := normalize_imdb imdb
  let rt_n := normalize_rt rt
  let acc0 : ℚ × ℚ × List (List Char × ℚ) := (0, 0, [])
  let acc1 : ℚ × ℚ × List (List Char × ℚ) := match tmdb_n with
    | some v => (acc0.1 + v * (2/10), acc0.2.1 + 2/10, acc0.2.2 ++ [("tmdb".toList, v)])
    | none => acc0
  let acc2 : ℚ × ℚ × List (List Char × ℚ) := match imdb_n with
    | some v => (acc1.1 + v * (5/10), acc1.2.1 + 5/10, acc1.2.2 ++ [("imdb".toList, v)])
    | none => acc1
  let acc3 : ℚ × ℚ × List (List Char × ℚ) := match rt_n with
    | some v => (acc2.1 + v * (3/10), acc2.2.1 + 3/10, acc2.2.2 ++ [("rt".toList, v)])
    | none => acc2
  { aggregated := if acc3.2.1 > 0 then some (pyRound1 (acc3.1 / acc3.2.1)) else none
    breakdown := acc3.2.2 }

/-! ### JSON values (`json.dumps` / `json.loads`)

`Json` models the Python values the repo caches: `None`, booleans, numbers,
strings, lists and (insertion-ordered) dicts.  Numbers are decimals
`±m / 10^e`; `e = 0` plays the role of `int`, `e > 0` of `float` printed
with a decimal point.  `jsonDump` prints compactly (separators `,` and `:`;
Python's default `', '`/`': '` only adds whitespace, which carries no
information) and escapes `"`, `\` and control characters as `\u00XX`
(Python also uses short escapes such as `\n` — the parser accepts both).
`jsonLoads` parses the whitespace-free grammar `jsonDump` emits. -/

inductive Json where
  | null
  | bool (b : Bool)
  | num (m : ℤ) (e : ℕ)
  | str (s : List Char)
  | arr (elems : List Json)
  | obj (fields : List (List Char × Json))

def hexDigitChar (d : ℕ) : Char :=
  if d < 10 then digitChar d else Char.ofNat (97 + d - 10)

def hex4 (n : ℕ) : List Char :=
  [hexDigitChar (n / 4096 % 16), hexDigitChar (n / 256 % 16),
   hexDigitChar (n / 16 % 16), hexDigitChar (n % 16)]

def escapeChar (c : Char) : List Char :=
  if c = '"' then ['\\', '"']
  else if c = '\\' then ['\\', '\\']
  else if c.toNat < 32 then '\\' :: 'u' :: hex4 c.toNat
  else [c]

def escapeStr (s : List Char) : List Char :=
  s.foldr (fun c acc => escapeChar c ++ acc) []

/-- Print the decimal `±m / 10^e` the way Python prints the corresponding
`int` (`e = 0`) or `float` (`e > 0`, with a decimal point). -/
def printNum (m : ℤ) (e : ℕ) : List Char :=
  let sign : List Char := if m < 0 then ['-'] else []
  let ds0 := natDigits m.natAbs
  let ds := if ds0.length ≤ e then List.replicate (e + 1 - ds0.length) '0' ++ ds0 else ds0
  if e = 0 then sign ++ ds
  else sign ++ ds.take (ds.length - e) ++ '.' :: ds.drop (ds.length - e)

mutual

/-- `json.dumps` on the model (compact separators). -/
def jsonDump : Json → List Char
  | .null => 'n' :: 'u' :: 'l' :: 'l' :: []
  | .bool true => 't' :: 'r' :: 'u' :: 'e' :: []
  | .bool false => 'f' :: 'a' :: 'l' :: 's' :: 'e' :: []
  | .num m e => printNum m e
  | .str s => '"' :: (escapeStr s ++ ['"'])
  | .arr [] => ['[', ']']
  | .arr (x :: xs) => '[' :: (jsonDumpItems x xs ++ [']'])
  | .obj [] => ['{', '}']
  | .obj (f :: fs) => '{' :: (jsonDumpFields f fs ++ ['}'])
termination_by v => sizeOf v
decreasing_by all_goals (simp_wf <;> omega)

def jsonDumpItems : Json → List Json → List Char
  | x, [] => jsonDump x
  | x, y :: ys => jsonDump x ++ ',' :: jsonDumpItems y ys
termination_by x xs => 1 + sizeOf x + sizeOf xs
decreasing_by all_goals (simp_wf <;> omega)

def jsonDumpFields : List Char × Json → List (List Char × Json) → List Char
  | (k, v), [] => '"' :: (escapeStr k ++ ['"']) ++ ':' :: jsonDump v
  | (k, v), f :: fs => ('"' :: (escapeStr k ++ ['"']) ++ ':' :: jsonDump v) ++ ',' :: jsonDumpFields f fs
termination_by f fs => 1 + sizeOf f + sizeOf fs
decreasing_by all_goals (simp_wf <;> omega)

end

def unescapeChar (c : Char) : Option Char :=
  if c = '"' then some '"'
  else if c = '\\' then some '\\'
  else if c = '/' then some '/'
  else if c = 'n' then some '\n'
  else if c = 't' then some '\t'
  else if c = 'r' then some '\x0d'
  else if c = 'b' then some '\x08'
  else if c = 'f' then some '\x0c'
  else none

def hexVal (c : Char) : Option ℕ :=
  if 48 ≤ c.toNat ∧ c.toNat ≤ 57 then some (c.toNat - 48)
  else if 97 ≤ c.toNat ∧ c.toNat ≤ 102 then some (c.toNat - 87)
  else if 65 ≤ c.toNat ∧ c.toNat ≤ 70 then some (c.toNat - 55)
  else none

/-- Parse a JSON string body (after the opening quote) up to the closing
quote; returns the unescaped characters and the rest of the input. -/
def parseStrBody : List Char → Option (List Char × List Char)
  | [] => none
  | c :: t =>
    if c = '"' then some ([], t)
    else if c = '\\' then
      match t with
      | 'u' :: a :: b :: c2 :: d :: t2 =>
          match hexVal a, hexVal b, hexVal c2, hexVal d with
          | some x, some y, some z, some w =>
              (parseStrBody t2).map fun r => (Char.ofNat (4096 * x + 256 * y + 16 * z + w) :: r.1, r.2)
          | _, _, _, _ => none
      | e :: t2 =>
          match unescapeChar e with
          | some c2 => (parseStrBody t2).map fun r => (c2 :: r.1, r.2)
          | none => none
      | [] => none
    else (parseStrBody t).map fun r => (c :: r.1, r.2)

def intOfSign (neg : Bool) (n : ℕ) : ℤ := if neg then -(n : ℤ) else n

/-- Digits (and optional fraction) of a JSON number, after the sign. -/
def parseNumCore (neg : Bool) (t : List Char) : Option (Json × List Char) :=
  let ip := t.takeWhile isDigitCh
  if ip.isEmpty then none
  else
    match t.dropWhile isDigitCh with
    | '.' :: r2 =>
        let fp := r2.takeWhile isDigitCh
        if fp.isEmpty then none
        else some (.num (intOfSign neg (natOfDigits (ip ++ fp))) fp.length, r2.dropWhile isDigitCh)
    | r => some (.num (intOfSign neg (natOfDigits ip)) 0, r)

/-- Parse a JSON number `-?digits(.digits)?` (no exponent form: `jsonDump`
never emits one). -/
def parseNum (s : List Char) : Option (Json × List Char) :=
  match s with
  | '-' :: t => parseNumCore true t
  | t => parseNumCore false t

mutual

/-- Fuel-driven JSON value parser (fuel bounds the nesting of values). -/
def jsonParseVal : ℕ → List Char → Option (Json × List Char)
  | 0, _ => none
  | n + 1, s =>
    match s with
    | [] => none
    | c :: t =>
      if c = 'n' then
        match t with | 'u' :: 'l' :: 'l' :: t2 => some (.null, t2) | _ => none
      else if c = 't' then
        match t with | 'r' :: 'u' :: 'e' :: t2 => some (.bool true, t2) | _ => none
      else if c = 'f' then
        match t with | 'a' :: 'l' :: 's' :: 'e' :: t2 => some (.bool false, t2) | _ => none
      else if c = '"' then (parseStrBody t).map fun r => (.str r.1, r.2)
      else if c = '[' then
        match t with
        | [] => none
        | c2 :: t2 =>
            if c2 = ']' then some (.arr [], t2)
            else (jsonParseItems n (c2 :: t2)).map fun r => (.arr r.1, r.2)
      else if c = '{' then
        match t with
        | [] => none
        | c2 :: t2 =>
            if c2 = '}' then some (.obj [], t2)
            else (jsonParseFields n (c2 :: t2)).map fun r => (.obj r.1, r.2)
      else parseNum (c :: t)

/-- Comma-separated values terminated by `]`. -/
def jsonParseItems : ℕ → List Char → Option (List Json × List Char)
  | 0, _ => none
  | n + 1, s =>
    match jsonParseVal n s with
    | none => none
    | some (v, r) =>
      match r with
      | [] => none
      | c :: u =>
          if c = ',' then (jsonParseItems n u).map fun r2 => (v :: r2.1, r2.2)
          else if c = ']' then some ([v], u)
          else none

/-- Comma-separated `"key":value` fields terminated by `}`. -/
def jsonParseFields : ℕ → List Char → Option (List (List Char × Json) × List Char)
  | 0, _ => none
  | n + 1, s =>
    match s with
    | [] => none
    | c :: t =>
      if c = '"' then
        match parseStrBody t with
        | none => none
        | some (k, r) =>
          match r with
          | [] => none
          | c2 :: u =>
            if c2 = ':' then
              match jsonParseVal n u with
              | none => none
              | some (v, r2) =>
                match r2 with
                | [] => none
                | c3 :: u2 =>
                  if c3 = ',' then (jsonParseFields n u2).map fun r3 => ((k, v) :: r3.1, r3.2)
                  else if c3 = '}' then some ([(k, v)], u2)
                  else none
            else none
      else none

end

/-- `json.loads` on the model: the whole input must be one JSON value. -/
def jsonLoads (s : List Char) : Option Json :=
  match jsonParseVal (s.length + 1) s with
  | some (v, []) => some v
  | _ => none

/-! ### The persistent cache (`backend/database.py`)

A row of the `cache` table: `key` (String primary key), `value`
(nullable Text), `timestamp` (DateTime).  The table is a list of rows;
`fetch_one` of `cache.select().where(key == k)` is `find?` on it. -/

structure CacheRow where
  key : List Char
  value : Option (List Char)
  timestamp : ℚ

abbrev Store := List CacheRow

def fetchOne (s : Store) (k : List Char) : Option CacheRow :=
  s.find? fun r => r.key = k

/-- `get_cache(db, key, expiry)` at instant `now` (`datetime.utcnow()`).
`json.loads(row['value']) if row['value'] else None`: a NULL or empty
payload is falsy and yields `None`; a JSON parse failure is caught and
yields `None`. -/
def getCache (s : Store) (k : List Char) (expiry now : ℚ) : Option Json :=
  match fetchOne s k with
  | none => none
  | some row =>
      if now - row.timestamp < expiry then
        match row.value with
        | none => none
        | some t =>
            if t.isEmpty then none
            else
              match jsonLoads t with
              | some j => some j
              | none => none
      else none

/-- The `DELETE FROM cache WHERE key = k` statement. -/
def deleteKey (s : Store) (k : List Char) : Store :=
  s.filter fun r => ¬ r.key = k

/-- The `INSERT INTO cache VALUES (k, json.dumps(value), utcnow())` statement. -/
def insertRow (s : Store) (k : List Char) (v : Json) (now : ℚ) : Store :=
  s ++ [⟨k, some (jsonDump v), now⟩]

/-- `set_cache(db, key, value)`: delete-then-insert upsert, two separate
statements. -/
def setCache (s : Store) (k : List Char) (v : Json) (now : ℚ) : Store :=
  insertRow (deleteKey s k) k v now

/-- `DELETE FROM cache` (the `/admin/clear_cache` path). -/
def clearCache (_ : Store) : Store := []

/-- The store operations a request sequence can perform.  `get_cache` only
issues a SELECT, so its store transition is the identity. -/
inductive CacheOp where
  | set (k : List Char) (v : Json)
  | get (k : List Char) (expiry : ℚ)
  | del (k : List Char)
  | clear

def applyOp (now : ℚ) (s : Store) : CacheOp → Store
  | .set k v => setCache s k v now
  | .get _ _ => s
  | .del k => deleteKey s k
  | .clear => clearCache s

def applyOps (now : ℚ) (s : Store) (ops : List CacheOp) : Store :=
  ops.foldl (applyOp now) s

/-- Key-uniqueness invariant: no two rows share a key. -/
def WellKeyed (s : Store) : Prop :=
  s.Pairwise fun a b => a.key ≠ b.key

/-- Head of `l` (if any) fails predicate `p`. -/
def headNotP (p : Char → Bool) : List Char → Prop
  | [] => True
  | c :: _ => p c = false

/-! ### Number round trip -/

/-- `rest` starts (if at all) with a JSON delimiter, so a greedy number
parse cannot run into it. -/
def Delim : List Char → Prop
  | [] => True
  | c :: _ => c = ',' ∨ c = ']' ∨ c = '}'

/-! ### The value round trip -/

mutual

/-- Number of parser invocations needed for a value (the fuel measure). -/
def jweight : Json → ℕ
  | .null => 1
  | .bool _ => 1
  | .num _ _ => 1
  | .str _ => 1
  | .arr [] => 1
  | .arr (x :: xs) => 1 + jweightItems x xs
  | .obj [] => 1
  | .obj (f :: fs) => 1 + jweightFields f fs
termination_by v => sizeOf v
decreasing_by all_goals (simp_wf <;> omega)

def jweightItems : Json → List Json → ℕ
  | x, [] => 1 + jweight x
  | x, y :: ys => 1 + jweight x + jweightItems y ys
termination_by x xs => 1 + sizeOf x + sizeOf xs
decreasing_by all_goals (simp_wf <;> omega)

def jweightFields : List Char × Json → List (List Char × Json) → ℕ
  | (k, v), [] => 1 + jweight v
  | (k, v), f :: fs => 1 + jweight v + jweightFields f fs
termination_by f fs => 1 + sizeOf f + sizeOf fs
decreasing_by all_goals (simp_wf <;> omega)

end

/-! ### Python truthiness and the `if cached:` caller pattern -/

/-- Python truthiness of a JSON value (`bool(v)`). -/
def pyTruthy : Json → Bool
  | .null => false
  | .bool b => b
  | .num m _ => ¬ m = 0
  | .str s => ¬ s.isEmpty
  | .arr l => ¬ l.isEmpty
  | .obj l => ¬ l.isEmpty

/-- The short-circuit test every caller performs on a cache read:
`cached = await get_cache(...); if cached: <use cached>`.  `true` means the
remote fetch is skipped. -/
def cacheHitTruthy (s : Store) (k : List Char) (expiry now : ℚ) : Bool :=
  match getCache s k expiry now with
  | some v => pyTruthy v
  | none => false

/-! ### The per-item enrichment step of `/search` (`backend/app.py` 316–354)

Typed views of the JSON payloads the remote sources return: `TmdbItem` is
one element of TMDb's `results` (fields read via `item.get(...)`),
`ProvidersInfo` the parsed result of `get_tmdb_providers` (independently
cached; supplied here as an input).  `HttpOutcome` is the observable
behaviour of the OMDb call: a transport error (`httpx` raises — nothing in
`search_movies` catches it), or a response with a status code and a body
(`none` = a body `.json()` cannot parse, which also raises). -/

structure TmdbItem where
  title : Option (List Char)
  name : Option (List Char)
  release_date : Option (List Char)
  first_air_date : Option (List Char)
  id : Option ℤ
  vote_average : Option ℚ
  poster_path : Option (List Char)
  overview : Option (List Char)

structure ProvidersInfo where
  providers : List (List Char)
  link : Option (List Char)

inductive HttpOutcome where
  | resp (status : ℕ) (body : Option Json)
  | transportError

/-- `omdb_resp = await client.get(...)` followed by
`omdb_data = omdb_resp.json() if omdb_resp.status_code == 200 else {}`.
An exception propagates out of `search_movies` as `.error`. -/
def omdbFetch : HttpOutcome → Except Unit Json
  | .transportError => .error ()
  | .resp st body =>
      if st = 200 then
        match body with
        | some j => .ok j
        | none => .error ()
      else .ok (.obj [])

/-- `d.get(key)` on a parsed JSON object; raises (`AttributeError`) on a
non-dict. -/
def objGet : Json → List Char → Except Unit (Option Json)
  | .obj fs, key => .ok ((fs.find? fun f => f.1 = key).map Prod.snd)
  | _, _ => .error ()

/-- `for r in ratings` over a non-list raises. -/
def asArr : Json → Except Unit (List Json)
  | .arr l => .ok l
  | _ => .error ()

/-- Python `x == "lit"` for a `d.get` result: only a string can compare
equal. -/
def jsonIsStr : Option Json → List Char → Bool
  | some (.str s), t => s = t
  | _, _ => false

def jsonAsStr : Json → Option (List Char)
  | .str s => some s
  | _ => none

/-- `next((r["Value"] for r in ratings if r.get("Source") == src), None)`:
scan lazily; `r.get` on a non-dict raises, and a match without a `"Value"`
key raises `KeyError`. -/
def firstRatingValue : List Json → List Char → Except Unit (Option Json)
  | [], _ => .ok none
  | r :: rs, src =>
      match r with
      | .obj fs =>
          if jsonIsStr ((fs.find? fun f => f.1 = ("Source".toList : List Char)).map Prod.snd) src
          then
            match (fs.find? fun f => f.1 = ("Value".toList : List Char)).map Prod.snd with
            | some v => .ok (some v)
            | none => .error ()
          else firstRatingValue rs src
      | _ => .error ()

/-- Python `a or b` on optional strings (`""` is falsy). -/
def pyOrStr (a b : Option (List Char)) : Option (List Char) :=
  match a with
  | some s => if s.isEmpty then b else some s
  | none => b

/-- `omdb_data.get("Plot") not in (None, "N/A")`. -/
def plotUsable : Option Json → Bool
  | none => false
  | some (.str s) => ¬ s = ("N/A".toList : List Char)
  | some _ => true

/-- The `movie_detail` dict assembled per item. -/
structure MovieRecord where
  id : Option ℤ
  title : Option (List Char)
  year : List Char
  summary : Json
  poster : Option (List Char)
  imdb_rating : Option Json
  rotten_tomatoes_rating : Option Json
  tmdb_vote_average : Option ℚ
  aggregated_rating : Option ℚ
  platforms : List (List Char)
  provider_link : Option (List Char)

/-- One item's enrichment on a cache miss (`backend/app.py` 317–354 minus
the cache write, with the — independently cached — provider lookup's result
supplied as an input). -/
def processItem (item : TmdbItem) (omdb : HttpOutcome) (prov : ProvidersInfo) :
    Except Unit MovieRecord := do
  let title := pyOrStr item.title item.name
  let year := (match pyOrStr item.release_date item.first_air_date with
               | some s => s
               | none => []).take 4
  let omdb_data ← omdbFetch omdb
  let ratingsJ ← objGet omdb_data ("Ratings".toList)
  let ratings ← asArr (ratingsJ.getD (.arr []))
  let imdb_rating ← firstRatingValue ratings ("Internet Movie Database".toList)
  let rt_rating ← firstRatingValue ratings ("Rotten Tomatoes".toList)
  let tmdb_vote := item.vote_average
  let agg := aggregate_ratings tmdb_vote (imdb_rating.bind jsonAsStr) (rt_rating.bind jsonAsStr)
  let plot ← objGet omdb_data ("Plot".toList)
  pure
    { id := item.id
      title := title
      year := year
      summary :=
        if plotUsable plot then plot.getD .null
        else .str (match item.overview with
                   | some s => s
                   | none => [])
      poster :=
        match item.poster_path with
        | some p =>
            if p.isEmpty then none
            else some (("https://image.tmdb.org/t/p/w500".toList : List Char) ++ p)
        | none => none
      imdb_rating := imdb_rating
      rotten_tomatoes_rating := rt_rating
      tmdb_vote_average := tmdb_vote
      aggregated_rating := agg.aggregated
      platforms := prov.providers
      provider_link := prov.link }

/-! ### Result sorting (`backend/app.py` 355–363)

`sorted(results, key=lambda r: (r.get("aggregated_rating") or 0),
reverse=True)`.  Python's `sorted` is the stable sort; stable sorts are
extensionally unique, and insertion sort (inserting earlier elements in
front of later equal-key elements) realizes it. -/

/-- `r.get("aggregated_rating") or 0` (an absent or zero rating keys as 0). -/
def sortKey (r : MovieRecord) : ℚ := r.aggregated_rating.getD 0

def sortByRatingDesc (l : List MovieRecord) : List MovieRecord :=
  l.insertionSort fun a b => sortKey b ≤ sortKey a

/-- The `/search` response payload (`page`/`total_pages`/`total_results`
defaulted exactly as `tmdb_data.get(...)` does). -/
structure SearchResponse where
  page : ℤ
  total_pages : ℤ
  total_results : ℤ
  results : List MovieRecord

def buildSearchResponse (tmdbPage tmdbTotalPages tmdbTotalResults : Option ℤ)
    (pageParam : ℤ) (records : List MovieRecord) : SearchResponse :=
  let results_sorted := sortByRatingDesc records
  { page := tmdbPage.getD pageParam
    total_pages := tmdbTotalPages.getD 1
    total_results := tmdbTotalResults.getD results_sorted.length
    results := results_sorted }

/-! ### The aggregation contract as the spec words it (for refinement) -/

/-- Aggregation as specified: for each of the three inputs that normalizes
successfully add `weight * value` to a running sum and `weight` to a
running total; `breakdown` holds exactly the present sources; if the total
weight is zero `aggregated` is absent, else `round(sum / total, 1)`. -/
def specAggregate (primary : Option ℚ) (secondary tertiary : Option (List Char)) : AggResult :=
  let sources : List ((List Char) × ℚ × Option ℚ) :=
    [("tmdb".toList, 2/10, normalize_tmdb primary),
     ("imdb".toList, 5/10, normalize_imdb secondary),
     ("rt".toList, 3/10, normalize_rt tertiary)]
  let present := sources.filterMap fun s => s.2.2.map fun v => (s.1, s.2.1, v)
  let total_weight := (present.map fun p => p.2.1).sum
  let weighted_sum := (present.map fun p => p.2.1 * p.2.2).sum
  { aggregated :=
      if total_weight = 0 then none else some (pyRound1 (weighted_sum / total_weight))
    breakdown := present.map fun p => (p.1, p.2.2) }

/-- A minimal record with a given id and aggregated rating (for the concrete
sorting example). -/
def exRec (i : ℤ) (a : Option ℚ) : MovieRecord :=
  ⟨some i, none, [], .null, none, none, none, none, a, [], none⟩

/-! ### Digit-string lemmas -/

theorem digitVal_digitChar {d : ℕ} (h : d < 10) : digitVal (digitChar d) = d := by
  interval_cases d <;> rfl

theorem isDigitCh_digitChar {d : ℕ} (h : d < 10) : isDigitCh (digitChar d) = true := by
  interval_cases d <;> rfl

theorem natDigitsAux_digits : ∀ f n, ∀ c ∈ natDigitsAux f n, isDigitCh c = true := by
  intro f
  induction f with
  | zero => intro n c hc; simp [natDigitsAux] at hc
  | succ f ih =>
      intro n c hc
      rw [natDigitsAux] at hc
      by_cases h0 : n = 0
      · simp [h0] at hc
      · simp only [h0, if_false, List.mem_append, List.mem_singleton] at hc
        rcases hc with hc | hc
        · exact ih _ c hc
        · subst hc; exact isDigitCh_digitChar (Nat.mod_lt _ (by norm_num))

theorem natDigits_digits (n : ℕ) : ∀ c ∈ natDigits n, isDigitCh c = true := by
  intro c hc
  rw [natDigits] at hc
  by_cases h0 : n = 0
  · simp [h0] at hc; subst hc; rfl
  · simp only [h0, if_false] at hc
    exact natDigitsAux_digits _ _ c hc

theorem natOfDigits_foldl (l : List Char) (init : ℕ) :
    l.foldl (fun a c => 10 * a + digitVal c) init = init * 10 ^ l.length + natOfDigits l := by
  induction l generalizing init with
  | nil => simp [natOfDigits]
  | cons c t ih =>
      have h1 : natOfDigits (c :: t) = digitVal c * 10 ^ t.length + natOfDigits t := by
        rw [natOfDigits, List.foldl_cons, show (10 * 0 + digitVal c) = digitVal c by ring]
        exact ih (digitVal c)
      rw [List.foldl_cons, ih (10 * init + digitVal c), h1, List.length_cons, pow_succ]
      ring

theorem natOfDigits_append (a b : List Char) :
    natOfDigits (a ++ b) = natOfDigits a * 10 ^ b.length + natOfDigits b := by
  rw [natOfDigits, List.foldl_append, natOfDigits_foldl]
  rfl

theorem natOfDigits_replicate_zero (k : ℕ) (l : List Char) :
    natOfDigits (List.replicate k '0' ++ l) = natOfDigits l := by
  rw [natOfDigits_append]
  have : natOfDigits (List.replicate k '0') = 0 := by
    induction k with
    | zero => rfl
    | succ k ih =>
        rw [List.replicate_succ, natOfDigits, List.foldl_cons]
        show List.foldl _ (10 * 0 + digitVal '0') _ = 0
        rw [natOfDigits_foldl]
        simpa [digitVal] using ih
  simp [this]

theorem natOfDigits_natDigitsAux : ∀ f n, n < f → natOfDigits (natDigitsAux f n) = n := by
  intro f
  induction f with
  | zero => omega
  | succ f ih =>
      intro n hn
      rw [natDigitsAux]
      by_cases h0 : n = 0
      · simp [h0, natOfDigits]
      · simp only [h0, if_false]
        rw [natOfDigits_append, ih (n / 10) (by omega)]
        have h10 : n % 10 < 10 := Nat.mod_lt _ (by norm_num)
        simp [natOfDigits, digitVal_digitChar h10]
        omega

theorem natOfDigits_natDigits (n : ℕ) : natOfDigits (natDigits n) = n := by
  rw [natDigits]
  by_cases h0 : n = 0
  · simp [h0]; rfl
  · simp only [h0, if_false]
    exact natOfDigits_natDigitsAux _ _ (Nat.lt_succ_self n)

theorem natDigits_ne_nil (n : ℕ) : natDigits n ≠ [] := by
  rw [natDigits]
  by_cases h0 : n = 0
  · simp [h0]
  · simp only [h0, if_false]
    rw [natDigitsAux]
    simp [h0]

theorem takeWhile_append_all {p : Char → Bool} {a b : List Char}
    (ha : ∀ c ∈ a, p c = true) (hb : headNotP p b) : (a ++ b).takeWhile p = a := by
  induction a with
  | nil =>
      cases b with
      | nil => rfl
      | cons c t => simp [List.takeWhile_cons, show p c = false from hb]
  | cons c t ih =>
      have hc : p c = true := ha c (by simp)
      simp [List.takeWhile_cons, hc, ih fun x hx => ha x (by simp [hx])]

theorem dropWhile_append_all {p : Char → Bool} {a b : List Char}
    (ha : ∀ c ∈ a, p c = true) (hb : headNotP p b) : (a ++ b).dropWhile p = b := by
  induction a with
  | nil =>
      cases b with
      | nil => rfl
      | cons c t => simp [List.dropWhile_cons, show p c = false from hb]
  | cons c t ih =>
      have hc : p c = true := ha c (by simp)
      simp [List.dropWhile_cons, hc, ih fun x hx => ha x (by simp [hx])]

theorem Delim.headNot_digit {l : List Char} (h : Delim l) : headNotP isDigitCh l := by
  cases l with
  | nil => trivial
  | cons c t => rcases h with h | h | h <;> subst h <;> rfl

theorem parseNumCore_int (neg : Bool) (ds rest : List Char)
    (hdig : ∀ c ∈ ds, isDigitCh c = true) (hne : ds ≠ []) (hr : Delim rest) :
    parseNumCore neg (ds ++ rest) = some (.num (intOfSign neg (natOfDigits ds)) 0, rest) := by
  obtain ⟨d, ds', rfl⟩ := List.exists_cons_of_ne_nil hne
  simp only [parseNumCore, takeWhile_append_all hdig hr.headNot_digit,
    dropWhile_append_all hdig hr.headNot_digit]
  rw [if_neg (by simp)]
  cases rest with
  | nil => rfl
  | cons c r' => rcases hr with h | h | h <;> subst h <;> rfl

theorem parseNumCore_frac (neg : Bool) (ip fp rest : List Char)
    (hipd : ∀ c ∈ ip, isDigitCh c = true) (hfpd : ∀ c ∈ fp, isDigitCh c = true)
    (hipne : ip ≠ []) (hfpne : fp ≠ []) (hr : Delim rest) :
    parseNumCore neg (ip ++ '.' :: (fp ++ rest)) =
      some (.num (intOfSign neg (natOfDigits (ip ++ fp))) fp.length, rest) := by
  obtain ⟨d, ip', rfl⟩ := List.exists_cons_of_ne_nil hipne
  obtain ⟨f, fp', rfl⟩ := List.exists_cons_of_ne_nil hfpne
  have hdot : headNotP isDigitCh ('.' :: (f :: fp' ++ rest)) := rfl
  simp only [parseNumCore, takeWhile_append_all hipd hdot, dropWhile_append_all hipd hdot,
    takeWhile_append_all hfpd hr.headNot_digit, dropWhile_append_all hfpd hr.headNot_digit]
  rw [if_neg (by simp), if_neg (by simp)]

theorem parseNum_neg (t : List Char) : parseNum ('-' :: t) = parseNumCore true t := rfl

theorem parseNum_digit_head (c : Char) (t : List Char) (h : isDigitCh c = true) :
    parseNum (c :: t) = parseNumCore false (c :: t) := by
  have hc : c ≠ '-' := by
    intro hc; subst hc; exact absurd h (by decide)
  rw [parseNum.eq_def]
  split
  · next t' heq => exact absurd (List.cons.injEq .. ▸ heq).1 hc
  · rfl

theorem printNum_int (m : ℤ) :
    printNum m 0 = (if m < 0 then ['-'] else []) ++ natDigits m.natAbs := by
  have h := natDigits_ne_nil m.natAbs
  have hlen : ¬ (natDigits m.natAbs).length ≤ 0 := by
    cases hnd : natDigits m.natAbs with
    | nil => exact absurd hnd h
    | cons a l => simp [hnd]
  simp only [printNum, if_neg hlen]
  simp

theorem printNum_frac (m : ℤ) (e : ℕ) (he : e ≠ 0) :
    ∃ ds : List Char, (∀ c ∈ ds, isDigitCh c = true) ∧ natOfDigits ds = m.natAbs ∧
      e < ds.length ∧
      printNum m e = (if m < 0 then ['-'] else []) ++
        (ds.take (ds.length - e) ++ '.' :: ds.drop (ds.length - e)) := by
  refine ⟨if (natDigits m.natAbs).length ≤ e
      then List.replicate (e + 1 - (natDigits m.natAbs).length) '0' ++ natDigits m.natAbs
      else natDigits m.natAbs, ?_, ?_, ?_, ?_⟩
  · intro c hc
    split at hc
    · rcases List.mem_append.1 hc with hc | hc
      · rw [List.eq_of_mem_replicate hc]; rfl
      · exact natDigits_digits _ c hc
    · exact natDigits_digits _ c hc
  · split
    · rw [natOfDigits_replicate_zero, natOfDigits_natDigits]
    · rw [natOfDigits_natDigits]
  · split
    · next hle => rw [List.length_append, List.length_replicate]; omega
    · next hgt => omega
  · simp only [printNum, if_neg he]
    rw [List.append_assoc]

theorem parseNum_printNum (m : ℤ) (e : ℕ) (rest : List Char) (hr : Delim rest) :
    parseNum (printNum m e ++ rest) = some (.num m e, rest) := by
  by_cases he : e = 0
  · subst he
    rw [printNum_int]
    have hdig := natDigits_digits m.natAbs
    have hne := natDigits_ne_nil m.natAbs
    by_cases hm : m < 0
    · rw [if_pos hm, List.append_assoc, List.singleton_append, parseNum_neg,
        parseNumCore_int _ _ _ hdig hne hr, natOfDigits_natDigits]
      have : intOfSign true m.natAbs = m := by
        simp [intOfSign, abs_of_neg hm]
      rw [this]
    · rw [if_neg hm, List.nil_append]
      obtain ⟨d, ds', hd⟩ := List.exists_cons_of_ne_nil hne
      rw [hd, List.cons_append, parseNum_digit_head _ _ (hdig d (by rw [hd]; simp)),
        ← List.cons_append, ← hd, parseNumCore_int _ _ _ hdig hne hr, natOfDigits_natDigits]
      have : intOfSign false m.natAbs = m := by
        simp [intOfSign, abs_of_nonneg (not_lt.1 hm)]
      rw [this]
  · obtain ⟨ds, hdig, hval, hlt, hprint⟩ := printNum_frac m e he
    have htake : ∀ c ∈ ds.take (ds.length - e), isDigitCh c = true :=
      fun c hc => hdig c (List.take_subset _ _ hc)
    have hdrop : ∀ c ∈ ds.drop (ds.length - e), isDigitCh c = true :=
      fun c hc => hdig c (List.drop_subset _ _ hc)
    have htakelen : (ds.take (ds.length - e)).length = ds.length - e := by
      rw [List.length_take]; omega
    have hdroplen : (ds.drop (ds.length - e)).length = e := by
      rw [List.length_drop]; omega
    have htakene : ds.take (ds.length - e) ≠ [] := by
      intro hnil; rw [hnil] at htakelen; simp at htakelen; omega
    have hdropne : ds.drop (ds.length - e) ≠ [] := by
      intro hnil; rw [hnil] at hdroplen; simp at hdroplen; omega
    have hsplit : ds.take (ds.length - e) ++ ds.drop (ds.length - e) = ds :=
      List.take_append_drop _ _
    have hassoc : (ds.take (ds.length - e) ++ '.' :: ds.drop (ds.length - e)) ++ rest
        = ds.take (ds.length - e) ++ '.' :: (ds.drop (ds.length - e) ++ rest) := by simp
    rw [hprint]
    by_cases hm : m < 0
    · rw [if_pos hm, List.append_assoc, List.singleton_append, parseNum_neg, hassoc,
        parseNumCore_frac _ _ _ _ htake hdrop htakene hdropne hr, hsplit, hval, hdroplen]
      have : intOfSign true m.natAbs = m := by
        simp [intOfSign, abs_of_neg hm]
      rw [this]
    · rw [if_neg hm, List.nil_append, hassoc]
      obtain ⟨d, tk', hd⟩ := List.exists_cons_of_ne_nil htakene
      rw [hd, List.cons_append, parseNum_digit_head _ _ (htake d (by rw [hd]; simp)),
        ← List.cons_append, ← hd,
        parseNumCore_frac _ _ _ _ htake hdrop htakene hdropne hr, hsplit, hval, hdroplen]
      have : intOfSign false m.natAbs = m := by
        simp [intOfSign, abs_of_nonneg (not_lt.1 hm)]
      rw [this]

/-! ### String round trip -/

theorem hexVal_hexDigitChar {d : ℕ} (h : d < 16) : hexVal (hexDigitChar d) = some d := by
  interval_cases d <;> rfl

theorem escapeStr_cons (c : Char) (s : List Char) :
    escapeStr (c :: s) = escapeChar c ++ escapeStr s := rfl

theorem parseStrBody_escape (s rest : List Char) :
    parseStrBody (escapeStr s ++ '"' :: rest) = some (s, rest) := by
  induction s with
  | nil =>
      show parseStrBody ([] ++ '"' :: rest) = _
      rw [List.nil_append, parseStrBody.eq_def]
      simp
  | cons c s ih =>
      rw [escapeStr_cons]
      by_cases h1 : c = '"'
      · subst h1
        show parseStrBody ('\\' :: '"' :: (escapeStr s ++ '"' :: rest)) = _
        rw [parseStrBody.eq_def]
        simp [unescapeChar, ih]
      · by_cases h2 : c = '\\'
        · subst h2
          show parseStrBody ('\\' :: '\\' :: (escapeStr s ++ '"' :: rest)) = _
          rw [parseStrBody.eq_def]
          simp [unescapeChar, ih]
        · by_cases h3 : c.toNat < 32
          · have hchar : escapeChar c = '\\' :: 'u' :: hex4 c.toNat := by
              rw [escapeChar, if_neg h1, if_neg h2, if_pos h3]
            rw [hchar]
            have e1 : hexVal (hexDigitChar (c.toNat / 4096 % 16)) = some (c.toNat / 4096 % 16) :=
              hexVal_hexDigitChar (Nat.mod_lt _ (by norm_num))
            have e2 : hexVal (hexDigitChar (c.toNat / 256 % 16)) = some (c.toNat / 256 % 16) :=
              hexVal_hexDigitChar (Nat.mod_lt _ (by norm_num))
            have e3 : hexVal (hexDigitChar (c.toNat / 16 % 16)) = some (c.toNat / 16 % 16) :=
              hexVal_hexDigitChar (Nat.mod_lt _ (by norm_num))
            have e4 : hexVal (hexDigitChar (c.toNat % 16)) = some (c.toNat % 16) :=
              hexVal_hexDigitChar (Nat.mod_lt _ (by norm_num))
            have hval : 4096 * (c.toNat / 4096 % 16) + 256 * (c.toNat / 256 % 16)
                + 16 * (c.toNat / 16 % 16) + c.toNat % 16 = c.toNat := by omega
            show parseStrBody ('\\' :: 'u' :: hex4 c.toNat ++ (escapeStr s ++ '"' :: rest)) = _
            rw [hex4, List.cons_append, List.cons_append, List.cons_append, List.cons_append,
              List.cons_append, List.cons_append, List.nil_append, parseStrBody.eq_def]
            simp [e1, e2, e3, e4, hval, Char.ofNat_toNat, ih]
          · have hchar : escapeChar c = [c] := by
              rw [escapeChar, if_neg h1, if_neg h2, if_neg h3]
            rw [hchar, List.singleton_append, parseStrBody.eq_def]
            simp [h1, h2, ih]

theorem jweight_pos (v : Json) : 1 ≤ jweight v := by
  cases v with
  | null => simp [jweight]
  | bool b => simp [jweight]
  | num m e => simp [jweight]
  | str s => simp [jweight]
  | arr l => cases l <;> simp [jweight]
  | obj l => cases l <;> simp [jweight]

theorem jweightItems_expand (x : Json) (xs : List Json) :
    jweightItems x xs = match xs with
      | [] => 1 + jweight x
      | y :: ys => 1 + jweight x + jweightItems y ys := by
  cases xs <;> simp [jweightItems]

theorem jweightFields_expand (f : List Char × Json) (fs : List (List Char × Json)) :
    jweightFields f fs = match fs with
      | [] => 1 + jweight f.2
      | g :: gs => 1 + jweight f.2 + jweightFields g gs := by
  obtain ⟨k, v⟩ := f
  cases fs <;> simp [jweightFields]

theorem jsonDump_null : jsonDump .null = ['n', 'u', 'l', 'l'] := by simp [jsonDump]

theorem jsonDump_true : jsonDump (.bool true) = ['t', 'r', 'u', 'e'] := by simp [jsonDump]

theorem jsonDump_false : jsonDump (.bool false) = ['f', 'a', 'l', 's', 'e'] := by simp [jsonDump]

theorem jsonDump_num (m : ℤ) (e : ℕ) : jsonDump (.num m e) = printNum m e := by simp [jsonDump]

theorem jsonDump_str (s : List Char) :
    jsonDump (.str s) = '"' :: (escapeStr s ++ ['"']) := by simp [jsonDump]

theorem jsonDump_arr_nil : jsonDump (.arr []) = ['[', ']'] := by simp [jsonDump]

theorem jsonDump_arr_cons (x : Json) (xs : List Json) :
    jsonDump (.arr (x :: xs)) = '[' :: (jsonDumpItems x xs ++ [']']) := by simp [jsonDump]

theorem jsonDump_obj_nil : jsonDump (.obj []) = ['{', '}'] := by simp [jsonDump]

theorem jsonDump_obj_cons (f : List Char × Json) (fs : List (List Char × Json)) :
    jsonDump (.obj (f :: fs)) = '{' :: (jsonDumpFields f fs ++ ['}']) := by simp [jsonDump]

theorem jsonDumpItems_nil (x : Json) : jsonDumpItems x [] = jsonDump x := by simp [jsonDumpItems]

theorem jsonDumpItems_cons (x y : Json) (ys : List Json) :
    jsonDumpItems x (y :: ys) = jsonDump x ++ ',' :: jsonDumpItems y ys := by
  simp [jsonDumpItems]

theorem jsonDumpFields_nil (k : List Char) (v : Json) :
    jsonDumpFields (k, v) [] = '"' :: (escapeStr k ++ ['"']) ++ ':' :: jsonDump v := by
  simp [jsonDumpFields]

theorem jsonDumpFields_cons (k : List Char) (v : Json) (f : List Char × Json)
    (fs : List (List Char × Json)) :
    jsonDumpFields (k, v) (f :: fs)
      = ('"' :: (escapeStr k ++ ['"']) ++ ':' :: jsonDump v) ++ ',' :: jsonDumpFields f fs := by
  simp [jsonDumpFields]

/-- A printed number starts with `-` or a digit. -/
theorem printNum_head (m : ℤ) (e : ℕ) :
    ∃ c cs, printNum m e = c :: cs ∧ (c = '-' ∨ isDigitCh c = true) := by
  by_cases he : e = 0
  · subst he
    rw [printNum_int]
    by_cases hm : m < 0
    · exact ⟨'-', _, by rw [if_pos hm]; rfl, Or.inl rfl⟩
    · rw [if_neg hm, List.nil_append]
      obtain ⟨d, ds', hd⟩ := List.exists_cons_of_ne_nil (natDigits_ne_nil m.natAbs)
      exact ⟨d, ds', hd, Or.inr (natDigits_digits _ d (by rw [hd]; simp))⟩
  · obtain ⟨ds, hdig, _, hlt, hprint⟩ := printNum_frac m e he
    rw [hprint]
    by_cases hm : m < 0
    · exact ⟨'-', _, by rw [if_pos hm]; rfl, Or.inl rfl⟩
    · rw [if_neg hm, List.nil_append]
      have htakelen : (ds.take (ds.length - e)).length = ds.length - e := by
        rw [List.length_take]; omega
      have htakene : ds.take (ds.length - e) ≠ [] := by
        intro hnil; rw [hnil] at htakelen; simp at htakelen; omega
      obtain ⟨d, tk', hd⟩ := List.exists_cons_of_ne_nil htakene
      refine ⟨d, tk' ++ '.' :: ds.drop (ds.length - e), ?_, Or.inr ?_⟩
      · rw [hd]; simp
      · exact hdig d (List.take_subset _ _ (by rw [hd]; simp))

/-- Every printed value starts with a character other than `]`, `}` and `,`. -/
theorem jsonDump_head (v : Json) :
    ∃ c cs, jsonDump v = c :: cs ∧ c ≠ ']' ∧ c ≠ '}' ∧ c ≠ ',' := by
  have hnum : ∀ (m : ℤ) (e : ℕ), ∃ c cs, printNum m e = c :: cs ∧ c ≠ ']' ∧ c ≠ '}' ∧ c ≠ ',' := by
    intro m e
    obtain ⟨c, cs, hcs, hc⟩ := printNum_head m e
    refine ⟨c, cs, hcs, ?_, ?_, ?_⟩ <;>
      (rcases hc with hc | hc
       · subst hc; decide
       · intro hne; subst hne; exact absurd hc (by decide))
  cases v with
  | null => exact ⟨'n', _, jsonDump_null, by decide, by decide, by decide⟩
  | bool b =>
      cases b with
      | true => exact ⟨'t', _, jsonDump_true, by decide, by decide, by decide⟩
      | false => exact ⟨'f', _, jsonDump_false, by decide, by decide, by decide⟩
  | num m e =>
      obtain ⟨c, cs, hcs, h1, h2, h3⟩ := hnum m e
      exact ⟨c, cs, by rw [jsonDump_num, hcs], h1, h2, h3⟩
  | str s => exact ⟨'"', _, jsonDump_str s, by decide, by decide, by decide⟩
  | arr l =>
      cases l with
      | nil => exact ⟨'[', _, jsonDump_arr_nil, by decide, by decide, by decide⟩
      | cons x xs => exact ⟨'[', _, jsonDump_arr_cons x xs, by decide, by decide, by decide⟩
  | obj l =>
      cases l with
      | nil => exact ⟨'{', _, jsonDump_obj_nil, by decide, by decide, by decide⟩
      | cons f fs => exact ⟨'{', _, jsonDump_obj_cons f fs, by decide, by decide, by decide⟩

theorem jweightItems_pos (x : Json) (xs : List Json) : 1 ≤ jweightItems x xs := by
  cases xs with
  | nil => simp [jweightItems]
  | cons y ys => simp [jweightItems]; omega

theorem jweightFields_pos (f : List Char × Json) (fs : List (List Char × Json)) :
    1 ≤ jweightFields f fs := by
  obtain ⟨k, v⟩ := f
  cases fs with
  | nil => simp [jweightFields]
  | cons g gs => simp [jweightFields]; omega

theorem delim_nil : Delim [] := trivial

theorem delim_comma (l : List Char) : Delim (',' :: l) := Or.inl rfl

theorem delim_rbracket (l : List Char) : Delim (']' :: l) := Or.inr (Or.inl rfl)

theorem delim_rbrace (l : List Char) : Delim ('}' :: l) := Or.inr (Or.inr rfl)

/-- Soundness of the fuel-driven parser on printed output, all three parsers
at once, by induction on the fuel. -/
theorem jsonParse_sound : ∀ n : ℕ,
    (∀ v rest, jweight v ≤ n → Delim rest →
        jsonParseVal n (jsonDump v ++ rest) = some (v, rest)) ∧
    (∀ x xs rest, jweightItems x xs ≤ n →
        jsonParseItems n (jsonDumpItems x xs ++ ']' :: rest) = some (x :: xs, rest)) ∧
    (∀ f fs rest, jweightFields f fs ≤ n →
        jsonParseFields n (jsonDumpFields f fs ++ '}' :: rest) = some (f :: fs, rest)) := by
  intro n
  induction n with
  | zero =>
      refine ⟨fun v rest hw _ => absurd hw (by have := jweight_pos v; omega),
        fun x xs rest hw => absurd hw (by have := jweightItems_pos x xs; omega),
        fun f fs rest hw => absurd hw (by have := jweightFields_pos f fs; omega)⟩
  | succ n ih =>
      obtain ⟨ihV, ihI, ihF⟩ := ih
      refine ⟨?_, ?_, ?_⟩
      · -- values
        intro v rest hw hd
        cases v with
        | null =>
            rw [jsonDump_null]
            simp [jsonParseVal]
        | bool b =>
            cases b with
            | true => rw [jsonDump_true]; simp [jsonParseVal]
            | false => rw [jsonDump_false]; simp [jsonParseVal]
        | num m e =>
            rw [jsonDump_num]
            obtain ⟨c, cs, hcs, hc⟩ := printNum_head m e
            have hne : c ≠ 'n' ∧ c ≠ 't' ∧ c ≠ 'f' ∧ c ≠ '"' ∧ c ≠ '[' ∧ c ≠ '{' := by
              rcases hc with hc | hc
              · subst hc; refine ⟨by decide, by decide, by decide, by decide, by decide, by decide⟩
              · refine ⟨?_, ?_, ?_, ?_, ?_, ?_⟩ <;>
                  (intro h; subst h; exact absurd hc (by decide))
            obtain ⟨h1, h2, h3, h4, h5, h6⟩ := hne
            rw [hcs, List.cons_append]
            simp only [jsonParseVal]
            rw [if_neg h1, if_neg h2, if_neg h3, if_neg h4, if_neg h5, if_neg h6,
              ← List.cons_append, ← hcs]
            exact parseNum_printNum m e rest hd
        | str s =>
            rw [jsonDump_str]
            have : ('"' :: (escapeStr s ++ ['"'])) ++ rest
                = '"' :: (escapeStr s ++ '"' :: rest) := by simp
            rw [this]
            simp [jsonParseVal, parseStrBody_escape]
        | arr l =>
            cases l with
            | nil =>
                rw [jsonDump_arr_nil]
                simp [jsonParseVal]
            | cons x xs =>
                rw [jsonDump_arr_cons]
                obtain ⟨c2, cs2, hc2, hb1, _, _⟩ := jsonDump_head x
                obtain ⟨tl, htl⟩ : ∃ tl, jsonDumpItems x xs = c2 :: tl := by
                  cases xs with
                  | nil => exact ⟨cs2, by rw [jsonDumpItems_nil, hc2]⟩
                  | cons y ys =>
                      exact ⟨cs2 ++ ',' :: jsonDumpItems y ys,
                        by rw [jsonDumpItems_cons, hc2]; simp⟩
                have hw2 : jweightItems x xs ≤ n := by
                  have : jweight (.arr (x :: xs)) = 1 + jweightItems x xs := by simp [jweight]
                  omega
                have hin : ('[' :: (jsonDumpItems x xs ++ [']'])) ++ rest
                    = '[' :: (c2 :: (tl ++ ']' :: rest)) := by rw [htl]; simp
                have hback : (c2 :: (tl ++ ']' :: rest)) = jsonDumpItems x xs ++ ']' :: rest := by
                  rw [htl]; simp
                rw [hin]
                simp only [jsonParseVal]
                simp [hb1, hback, ihI x xs rest hw2]
        | obj l =>
            cases l with
            | nil =>
                rw [jsonDump_obj_nil]
                simp [jsonParseVal]
            | cons f fs =>
                rw [jsonDump_obj_cons]
                obtain ⟨k, v⟩ := f
                obtain ⟨tl, htl⟩ : ∃ tl, jsonDumpFields (k, v) fs = '"' :: tl := by
                  cases fs with
                  | nil =>
                      exact ⟨(escapeStr k ++ ['"']) ++ ':' :: jsonDump v,
                        by rw [jsonDumpFields_nil]; simp⟩
                  | cons g gs =>
                      exact ⟨((escapeStr k ++ ['"']) ++ ':' :: jsonDump v)
                          ++ ',' :: jsonDumpFields g gs,
                        by rw [jsonDumpFields_cons]; simp⟩
                have hw2 : jweightFields (k, v) fs ≤ n := by
                  have : jweight (.obj ((k, v) :: fs)) = 1 + jweightFields (k, v) fs := by
                    simp [jweight]
                  omega
                have hin : ('{' :: (jsonDumpFields (k, v) fs ++ ['}'])) ++ rest
                    = '{' :: ('"' :: (tl ++ '}' :: rest)) := by rw [htl]; simp
                have hback : ('"' :: (tl ++ '}' :: rest))
                    = jsonDumpFields (k, v) fs ++ '}' :: rest := by rw [htl]; simp
                rw [hin]
                simp only [jsonParseVal]
                simp [hback, ihF (k, v) fs rest hw2]
      · -- array items
        intro x xs rest hw
        cases xs with
        | nil =>
            rw [jsonDumpItems_nil]
            have hwx : jweight x ≤ n := by
              have : jweightItems x [] = 1 + jweight x := by simp [jweightItems]
              omega
            simp only [jsonParseItems]
            simp [ihV x (']' :: rest) hwx (delim_rbracket rest)]
        | cons y ys =>
            rw [jsonDumpItems_cons]
            have hwx : jweight x ≤ n := by
              have : jweightItems x (y :: ys) = 1 + jweight x + jweightItems y ys := by
                simp [jweightItems]
              omega
            have hwy : jweightItems y ys ≤ n := by
              have : jweightItems x (y :: ys) = 1 + jweight x + jweightItems y ys := by
                simp [jweightItems]
              omega
            have hin : (jsonDump x ++ ',' :: jsonDumpItems y ys) ++ ']' :: rest
                = jsonDump x ++ (',' :: (jsonDumpItems y ys ++ ']' :: rest)) := by simp
            rw [hin]
            simp only [jsonParseItems]
            simp [ihV x (',' :: (jsonDumpItems y ys ++ ']' :: rest)) hwx (delim_comma _),
              ihI y ys rest hwy]
      · -- object fields
        intro f fs rest hw
        obtain ⟨k, v⟩ := f
        cases fs with
        | nil =>
            rw [jsonDumpFields_nil]
            have hwv : jweight v ≤ n := by
              have : jweightFields (k, v) [] = 1 + jweight v := by simp [jweightFields]
              omega
            have hin : (('"' :: (escapeStr k ++ ['"']) ++ ':' :: jsonDump v)) ++ '}' :: rest
                = '"' :: (escapeStr k ++ '"' :: (':' :: (jsonDump v ++ '}' :: rest))) := by simp
            rw [hin]
            simp only [jsonParseFields]
            simp [parseStrBody_escape, ihV v ('}' :: rest) hwv (delim_rbrace rest)]
        | cons g gs =>
            rw [jsonDumpFields_cons]
            have hwv : jweight v ≤ n := by
              have : jweightFields (k, v) (g :: gs) = 1 + jweight v + jweightFields g gs := by
                simp [jweightFields]
              omega
            have hwg : jweightFields g gs ≤ n := by
              have : jweightFields (k, v) (g :: gs) = 1 + jweight v + jweightFields g gs := by
                simp [jweightFields]
              omega
            have hin : (('"' :: (escapeStr k ++ ['"']) ++ ':' :: jsonDump v)
                  ++ ',' :: jsonDumpFields g gs) ++ '}' :: rest
                = '"' :: (escapeStr k ++ '"' ::
                    (':' :: (jsonDump v ++ ',' :: (jsonDumpFields g gs ++ '}' :: rest)))) := by
              simp
            rw [hin]
            simp only [jsonParseFields]
            simp [parseStrBody_escape,
              ihV v (',' :: (jsonDumpFields g gs ++ '}' :: rest)) hwv (delim_comma _),
              ihF g gs rest hwg]

mutual

theorem jweight_le_length (v : Json) : jweight v ≤ (jsonDump v).length := by
  cases v with
  | null => rw [jsonDump_null]; simp [jweight]
  | bool b => cases b with
      | true => rw [jsonDump_true]; simp [jweight]
      | false => rw [jsonDump_false]; simp [jweight]
  | num m e =>
      rw [jsonDump_num]
      obtain ⟨c, cs, hcs, _⟩ := printNum_head m e
      rw [hcs]
      simp [jweight]
  | str s => rw [jsonDump_str]; simp [jweight]
  | arr l =>
      cases l with
      | nil => rw [jsonDump_arr_nil]; simp [jweight]
      | cons x xs =>
          rw [jsonDump_arr_cons]
          have h := jweightItems_le_length x xs
          have : jweight (Json.arr (x :: xs)) = 1 + jweightItems x xs := by simp [jweight]
          simp only [this, List.length_cons, List.length_append, List.length_singleton]
          omega
  | obj l =>
      cases l with
      | nil => rw [jsonDump_obj_nil]; simp [jweight]
      | cons f fs =>
          rw [jsonDump_obj_cons]
          have h := jweightFields_le_length f fs
          have : jweight (Json.obj (f :: fs)) = 1 + jweightFields f fs := by
            obtain ⟨k, v⟩ := f; simp [jweight]
          simp only [this, List.length_cons, List.length_append, List.length_singleton]
          omega
termination_by sizeOf v
decreasing_by all_goals (simp_wf <;> omega)

theorem jweightItems_le_length (x : Json) (xs : List Json) :
    jweightItems x xs ≤ 1 + (jsonDumpItems x xs).length := by
  cases xs with
  | nil =>
      rw [jsonDumpItems_nil]
      have h := jweight_le_length x
      have : jweightItems x [] = 1 + jweight x := by simp [jweightItems]
      omega
  | cons y ys =>
      rw [jsonDumpItems_cons]
      have h1 := jweight_le_length x
      have h2 := jweightItems_le_length y ys
      have : jweightItems x (y :: ys) = 1 + jweight x + jweightItems y ys := by
        simp [jweightItems]
      simp only [this, List.length_append, List.length_cons]
      omega
termination_by 1 + sizeOf x + sizeOf xs
decreasing_by all_goals (simp_wf <;> omega)

theorem jweightFields_le_length (f : List Char × Json) (fs : List (List Char × Json)) :
    jweightFields f fs ≤ 1 + (jsonDumpFields f fs).length := by
  obtain ⟨k, v⟩ := f
  cases fs with
  | nil =>
      rw [jsonDumpFields_nil]
      have h := jweight_le_length v
      have : jweightFields (k, v) [] = 1 + jweight v := by simp [jweightFields]
      simp only [this, List.length_append, List.length_cons]
      omega
  | cons g gs =>
      rw [jsonDumpFields_cons]
      have h1 := jweight_le_length v
      have h2 := jweightFields_le_length g gs
      have : jweightFields (k, v) (g :: gs) = 1 + jweight v + jweightFields g gs := by
        simp [jweightFields]
      simp only [this, List.length_append, List.length_cons]
      omega
termination_by 1 + sizeOf f + sizeOf fs
decreasing_by all_goals (simp_wf <;> omega)

end

/-- `json.loads ∘ json.dumps` is the identity: the serialize-then-parse
round trip of the cache returns the stored payload unchanged. -/
theorem jsonLoads_jsonDump (v : Json) : jsonLoads (jsonDump v) = some v := by
  have hw : jweight v ≤ (jsonDump v).length + 1 :=
    le_trans (jweight_le_length v) (Nat.le_succ _)
  have h := (jsonParse_sound ((jsonDump v).length + 1)).1 v [] hw delim_nil
  rw [List.append_nil] at h
  rw [jsonLoads, h]

/-- `json.dumps` never produces the empty string (so a freshly written row
is never falsy). -/
theorem jsonDump_ne_nil (v : Json) : jsonDump v ≠ [] := by
  obtain ⟨c, cs, hcs, -⟩ := jsonDump_head v
  rw [hcs]
  exact List.cons_ne_nil c cs

/-! ### Store lemmas -/

theorem fetchOne_setCache_self (s : Store) (k : List Char) (v : Json) (now : ℚ) :
    fetchOne (setCache s k v now) k = some ⟨k, some (jsonDump v), now⟩ := by
  rw [setCache, insertRow, deleteKey, fetchOne, List.find?_append]
  have h1 : (s.filter fun r => ¬ r.key = k).find? (fun r => r.key = k) = none := by
    rw [List.find?_eq_none]
    intro x hx
    simp only [List.mem_filter, decide_not] at hx
    simpa using hx.2
  rw [h1]
  simp

theorem getCache_setCache_get (s : Store) (k : List Char) (v : Json) (expiry now now' : ℚ) :
    getCache (setCache s k v now) k expiry now'
      = if now' - now < expiry then some v else none := by
  rw [getCache, fetchOne_setCache_self]
  dsimp only
  by_cases h : now' - now < expiry
  · rw [if_pos h, if_pos h]
    have hne : (jsonDump v).isEmpty = false := by
      cases hd : jsonDump v with
      | nil => exact absurd hd (jsonDump_ne_nil v)
      | cons c cs => rfl
    simp only [hne, Bool.false_eq_true, if_false, jsonLoads_jsonDump]
  · rw [if_neg h, if_neg h]

theorem countKey_setCache (s : Store) (k : List Char) (v : Json) (now : ℚ) :
    ((setCache s k v now).filter fun r => r.key = k).length = 1 := by
  rw [setCache, insertRow, deleteKey, List.filter_append]
  have h1 : (s.filter fun r => ¬ r.key = k).filter (fun r => r.key = k) = [] := by
    rw [List.filter_eq_nil_iff]
    intro a ha
    simp only [List.mem_filter, decide_not] at ha
    simpa using ha.2
  rw [h1, List.nil_append, List.filter_cons]
  simp

theorem wellKeyed_setCache {s : Store} (k : List Char) (v : Json) (now : ℚ)
    (h : WellKeyed s) : WellKeyed (setCache s k v now) := by
  rw [setCache, insertRow, WellKeyed, List.pairwise_append]
  refine ⟨h.filter _, List.pairwise_singleton _ _, ?_⟩
  intro a ha b hb
  simp only [List.mem_singleton] at hb
  subst hb
  have h2 := List.of_mem_filter ha
  simpa using h2

theorem wellKeyed_deleteKey {s : Store} (k : List Char) (h : WellKeyed s) :
    WellKeyed (deleteKey s k) :=
  h.filter _

theorem wellKeyed_applyOp {s : Store} (now : ℚ) (op : CacheOp) (h : WellKeyed s) :
    WellKeyed (applyOp now s op) := by
  cases op with
  | set k v => exact wellKeyed_setCache k v now h
  | get k e => exact h
  | del k => exact wellKeyed_deleteKey k h
  | clear => exact List.Pairwise.nil

theorem wellKeyed_applyOps {now : ℚ} (ops : List CacheOp) :
    ∀ s : Store, WellKeyed s → WellKeyed (applyOps now s ops) := by
  induction ops with
  | nil => intro s h; exact h
  | cons op ops ih =>
      intro s h
      rw [applyOps, List.foldl_cons]
      exact ih _ (wellKeyed_applyOp now op h)

theorem sortByRatingDesc_perm (l : List MovieRecord) : (sortByRatingDesc l).Perm l :=
  List.perm_insertionSort _ l

theorem sortByRatingDesc_sorted (l : List MovieRecord) :
    (sortByRatingDesc l).Sorted fun a b => sortKey b ≤ sortKey a := by
  haveI : IsTotal MovieRecord (fun a b => sortKey b ≤ sortKey a) :=
    ⟨fun a b => le_total (sortKey b) (sortKey a)⟩
  haveI : IsTrans MovieRecord (fun a b => sortKey b ≤ sortKey a) :=
    ⟨fun _ _ _ hab hbc => le_trans hbc hab⟩
  exact List.sorted_insertionSort _ l

theorem filter_orderedInsert_of_key (q : ℚ) (a : MovieRecord) (l : List MovieRecord)
    (ha : sortKey a = q) :
    (List.orderedInsert (fun x y => sortKey y ≤ sortKey x) a l).filter (fun x => sortKey x = q)
      = a :: l.filter fun x => sortKey x = q := by
  induction l with
  | nil => simp [List.orderedInsert, ha]
  | cons b bs ih =>
      rw [List.orderedInsert]
      by_cases hb : sortKey b ≤ sortKey a
      · rw [if_pos hb]
        simp [List.filter_cons, ha]
      · rw [if_neg hb]
        have hbq : ¬ (sortKey b = q) := fun h => hb (le_of_eq (ha ▸ h))
        simp [List.filter_cons, hbq, ih]

theorem filter_orderedInsert_of_ne (q : ℚ) (a : MovieRecord) (l : List MovieRecord)
    (ha : ¬ sortKey a = q) :
    (List.orderedInsert (fun x y => sortKey y ≤ sortKey x) a l).filter (fun x => sortKey x = q)
      = l.filter fun x => sortKey x = q := by
  induction l with
  | nil => simp [List.orderedInsert, ha]
  | cons b bs ih =>
      rw [List.orderedInsert]
      by_cases hb : sortKey b ≤ sortKey a
      · rw [if_pos hb]
        simp [List.filter_cons, ha]
      · rw [if_neg hb]
        simp [List.filter_cons, ih]

/-- Stability: records with any given sort key keep their original relative
order. -/
theorem sortByRatingDesc_stable (l : List MovieRecord) (q : ℚ) :
    (sortByRatingDesc l).filter (fun r => sortKey r = q)
      = l.filter fun r => sortKey r = q := by
  induction l with
  | nil => rfl
  | cons x xs ih =>
      show (List.orderedInsert _ x (List.insertionSort _ xs)).filter _ = _
      by_cases hx : sortKey x = q
      · rw [filter_orderedInsert_of_key q x _ hx]
        rw [show (List.insertionSort (fun a b => sortKey b ≤ sortKey a) xs) = sortByRatingDesc xs
          from rfl, ih]
        simp [List.filter_cons, hx]
      · rw [filter_orderedInsert_of_ne q x _ hx]
        rw [show (List.insertionSort (fun a b => sortKey b ≤ sortKey a) xs) = sortByRatingDesc xs
          from rfl, ih]
        simp [List.filter_cons, hx]

/-! ### Evaluation bridges for the normalizers -/

theorem pyFloat_of_parse {s : List Char} {neg : Bool} {m : ℕ} {sc : ℤ}
    (h : pyFloatParse s = some (neg, m, sc)) : pyFloat s = some (decValue neg m sc) := by
  rw [pyFloat, h]; rfl

theorem pyFloat_none_of_parse {s : List Char} (h : pyFloatParse s = none) : pyFloat s = none := by
  rw [pyFloat, h]; rfl

theorem normalize_imdb_of_parse {s : List Char} {neg : Bool} {m : ℕ} {sc : ℤ}
    (hne : s.isEmpty = false) (h : pyFloatParse (s.takeWhile (· ≠ '/')) = some (neg, m, sc)) :
    normalize_imdb (some s) = some (decValue neg m sc * 10) := by
  simp only [normalize_imdb, hne, Bool.false_eq_true, if_false, pyFloat_of_parse h]

theorem normalize_imdb_none {s : List Char}
    (h : pyFloatParse (s.takeWhile (· ≠ '/')) = none) : normalize_imdb (some s) = none := by
  by_cases hne : s.isEmpty
  · simp only [normalize_imdb, hne, if_true]
  · simp only [normalize_imdb, hne, if_false, pyFloat_none_of_parse h]
    simp

theorem normalize_rt_of_parse {s : List Char} {neg : Bool} {m : ℕ} {sc : ℤ}
    (hne : s.isEmpty = false)
    (h : pyFloatParse (pyStrip (s.filter (· ≠ '%'))) = some (neg, m, sc)) :
    normalize_rt (some s) = some (decValue neg m sc) := by
  simp only [normalize_rt, hne, Bool.false_eq_true, if_false, pyFloat_of_parse h]

theorem normalize_rt_none {s : List Char}
    (h : pyFloatParse (pyStrip (s.filter (· ≠ '%'))) = none) : normalize_rt (some s) = none := by
  by_cases hne : s.isEmpty
  · simp only [normalize_rt, hne, if_true]
  · simp only [normalize_rt, hne, if_false, pyFloat_none_of_parse h]
    simp

theorem normalize_imdb_70 : normalize_imdb (some ("7.0/10".toList)) = some 70 := by
  rw [normalize_imdb_of_parse (by decide) (by decide : pyFloatParse _ = some (false, 70, -1))]
  norm_num [decValue]

theorem normalize_imdb_74 : normalize_imdb (some ("7.4/10".toList)) = some 74 := by
  rw [normalize_imdb_of_parse (by decide) (by decide : pyFloatParse _ = some (false, 74, -1))]
  norm_num [decValue]

theorem normalize_imdb_80 : normalize_imdb (some ("8.0/10".toList)) = some 80 := by
  rw [normalize_imdb_of_parse (by decide) (by decide : pyFloatParse _ = some (false, 80, -1))]
  norm_num [decValue]

theorem normalize_rt_90 : normalize_rt (some ("90%".toList)) = some 90 := by
  rw [normalize_rt_of_parse (by decide) (by decide : pyFloatParse _ = some (false, 90, 0))]
  norm_num [decValue]

theorem normalize_rt_95 : normalize_rt (some ("95%".toList)) = some 95 := by
  rw [normalize_rt_of_parse (by decide) (by decide : pyFloatParse _ = some (false, 95, 0))]
  norm_num [decValue]

theorem normalize_rt_3333 : normalize_rt (some ("33.33%".toList)) = some (3333 / 100) := by
  rw [normalize_rt_of_parse (by decide) (by decide : pyFloatParse _ = some (false, 3333, -2))]
  norm_num [decValue]

theorem normalize_tmdb_85 : normalize_tmdb (some (17 / 2)) = some 85 := by
  rw [normalize_tmdb]
  norm_num

/-! ### Rounding helpers -/

theorem roundHalfEven_intCast (n : ℤ) : roundHalfEven (n : ℚ) = n := by
  rw [roundHalfEven, Int.floor_intCast, if_neg (by norm_num), round_intCast]

theorem pyRound1_of_mul (q : ℚ) (n : ℤ) (h : q * 10 = (n : ℚ)) : pyRound1 q = (n : ℚ) / 10 := by
  rw [pyRound1, h, roundHalfEven_intCast]

theorem aggregate_ratings_eq_specAggregate (t : Option ℚ) (i r : Option (List Char)) :
    aggregate_ratings t i r = specAggregate t i r := by
  rcases ht : normalize_tmdb t with _ | vt <;>
    rcases hi : normalize_imdb i with _ | vi <;>
    rcases hr : normalize_rt r with _ | vr <;>
      (simp only [aggregate_ratings, specAggregate, ht, hi, hr, List.filterMap,
          Option.map_some, Option.map_none]
       norm_num
       try constructor) <;>
      (try ring_nf) <;> norm_num

/-! ### Concrete aggregate computations -/

theorem pyRound1_78 : pyRound1 78 = 78 := by
  norm_num [pyRound1, roundHalfEven, round_eq]

theorem pyRound1_80 : pyRound1 80 = 80 := by
  norm_num [pyRound1, roundHalfEven, round_eq]

theorem pyRound1_200 : pyRound1 200 = 200 := by
  norm_num [pyRound1, roundHalfEven, round_eq]

theorem pyRound1_3333 : pyRound1 (3333 / 100) = 333 / 10 := by
  norm_num [pyRound1, roundHalfEven, round_eq]

theorem aggregate_all_three :
    aggregate_ratings (some 8) (some ("7.0/10".toList)) (some ("90%".toList))
      = ⟨some 78, [("tmdb".toList, 80), ("imdb".toList, 70), ("rt".toList, 90)]⟩ := by
  have ht : normalize_tmdb (some 8) = some 80 := by rw [normalize_tmdb]; norm_num
  simp only [aggregate_ratings, ht, normalize_imdb_70, normalize_rt_90]
  norm_num
  exact pyRound1_78

theorem aggregate_all_none : aggregate_ratings none none none = ⟨none, []⟩ := rfl

theorem aggregate_sole_imdb :
    aggregate_ratings none (some ("8.0/10".toList)) none
      = ⟨some 80, [("imdb".toList, 80)]⟩ := by
  simp only [aggregate_ratings, normalize_tmdb, normalize_imdb_80, normalize_rt]
  norm_num
  exact pyRound1_80

theorem aggregate_tmdb_20 :
    aggregate_ratings (some 20) none none = ⟨some 200, [("tmdb".toList, 200)]⟩ := by
  have ht : normalize_tmdb (some 20) = some 200 := by rw [normalize_tmdb]; norm_num
  simp only [aggregate_ratings, ht, normalize_imdb, normalize_rt]
  norm_num
  exact pyRound1_200

theorem aggregate_sole_rt_3333 :
    (aggregate_ratings none none (some ("33.33%".toList))).aggregated = some (333 / 10) := by
  simp only [aggregate_ratings, normalize_tmdb, normalize_imdb, normalize_rt_3333]
  norm_num
  exact pyRound1_3333

/-! ### Range of the aggregated value -/

theorem roundHalfEven_nonneg {q : ℚ} (h : 0 ≤ q) : 0 ≤ roundHalfEven q := by
  rw [roundHalfEven]
  split
  · have h0 : 0 ≤ ⌊q⌋ := Int.le_floor.2 (by exact_mod_cast h)
    split <;> omega
  · rw [round_eq]
    exact Int.le_floor.2 (by push_cast; linarith)

theorem roundHalfEven_le {q : ℚ} {B : ℤ} (h : q ≤ (B : ℚ)) : roundHalfEven q ≤ B := by
  rw [roundHalfEven]
  split
  · next hf =>
      have hlt : ⌊q⌋ < B := by
        have h1 : (⌊q⌋ : ℚ) = q - 1/2 := by linarith
        have h2 : (⌊q⌋ : ℚ) < (B : ℚ) := by rw [h1]; linarith
        exact_mod_cast h2
      split <;> omega
  · rw [round_eq]
    exact Int.floor_le_iff.2 (by push_cast; linarith)

theorem pyRound1_bounds {q : ℚ} (h0 : 0 ≤ q) (h1 : q ≤ 100) :
    0 ≤ pyRound1 q ∧ pyRound1 q ≤ 100 := by
  have ha : 0 ≤ roundHalfEven (q * 10) := roundHalfEven_nonneg (by linarith)
  have hb : roundHalfEven (q * 10) ≤ (1000 : ℤ) := roundHalfEven_le (by push_cast; linarith)
  constructor
  · rw [pyRound1]
    have : (0 : ℚ) ≤ (roundHalfEven (q * 10) : ℚ) := by exact_mod_cast ha
    linarith
  · rw [pyRound1, div_le_iff (by norm_num : (0:ℚ) < 10)]
    have : (roundHalfEven (q * 10) : ℚ) ≤ 1000 := by exact_mod_cast hb
    linarith

theorem div_range_helper (ws tw : ℚ) (htw : 0 < tw) (h0 : 0 ≤ ws) (h1 : ws ≤ 100 * tw) :
    0 ≤ ws / tw ∧ ws / tw ≤ 100 :=
  ⟨div_nonneg h0 htw.le, (div_le_iff htw).2 (by linarith)⟩

/-- When every present normalized value is in [0,100], a present aggregated
value is in [0,100]. -/
theorem aggregate_ratings_range (t : Option ℚ) (i r : Option (List Char))
    (hbt : ∀ v, normalize_tmdb t = some v → 0 ≤ v ∧ v ≤ 100)
    (hbi : ∀ v, normalize_imdb i = some v → 0 ≤ v ∧ v ≤ 100)
    (hbr : ∀ v, normalize_rt r = some v → 0 ≤ v ∧ v ≤ 100) :
    ∀ a : ℚ, (aggregate_ratings t i r).aggregated = some a → 0 ≤ a ∧ a ≤ 100 := by
  intro a ha
  rcases ht : normalize_tmdb t with _ | vt <;>
    rcases hi : normalize_imdb i with _ | vi <;>
      rcases hr : normalize_rt r with _ | vr <;>
        simp only [aggregate_ratings, ht, hi, hr] at ha
  · exact absurd ha (by simp)
  · have hv := hbr vr hr
    rw [if_pos (by norm_num)] at ha
    obtain rfl : pyRound1 ((0 + vr * (3/10)) / (0 + 3/10)) = a := Option.some.inj ha
    have hd := div_range_helper (0 + vr * (3/10)) (0 + 3/10) (by norm_num)
      (by linarith [hv.1]) (by linarith [hv.2])
    exact pyRound1_bounds hd.1 hd.2
  · have hv := hbi vi hi
    rw [if_pos (by norm_num)] at ha
    obtain rfl : pyRound1 ((0 + vi * (5/10)) / (0 + 5/10)) = a := Option.some.inj ha
    have hd := div_range_helper (0 + vi * (5/10)) (0 + 5/10) (by norm_num)
      (by linarith [hv.1]) (by linarith [hv.2])
    exact pyRound1_bounds hd.1 hd.2
  · have hv1 := hbi vi hi
    have hv2 := hbr vr hr
    rw [if_pos (by norm_num)] at ha
    obtain rfl : pyRound1 ((0 + vi * (5/10) + vr * (3/10)) / (0 + 5/10 + 3/10)) = a :=
      Option.some.inj ha
    have hd := div_range_helper (0 + vi * (5/10) + vr * (3/10)) (0 + 5/10 + 3/10) (by norm_num)
      (by linarith [hv1.1, hv2.1]) (by linarith [hv1.2, hv2.2])
    exact pyRound1_bounds hd.1 hd.2
  · have hv := hbt vt ht
    rw [if_pos (by norm_num)] at ha
    obtain rfl : pyRound1 ((0 + vt * (2/10)) / (0 + 2/10)) = a := Option.some.inj ha
    have hd := div_range_helper (0 + vt * (2/10)) (0 + 2/10) (by norm_num)
      (by linarith [hv.1]) (by linarith [hv.2])
    exact pyRound1_bounds hd.1 hd.2
  · have hv1 := hbt vt ht
    have hv2 := hbr vr hr
    rw [if_pos (by norm_num)] at ha
    obtain rfl : pyRound1 ((0 + vt * (2/10) + vr * (3/10)) / (0 + 2/10 + 3/10)) = a :=
      Option.some.inj ha
    have hd := div_range_helper (0 + vt * (2/10) + vr * (3/10)) (0 + 2/10 + 3/10) (by norm_num)
      (by linarith [hv1.1, hv2.1]) (by linarith [hv1.2, hv2.2])
    exact pyRound1_bounds hd.1 hd.2
  · have hv1 := hbt vt ht
    have hv2 := hbi vi hi
    rw [if_pos (by norm_num)] at ha
    obtain rfl : pyRound1 ((0 + vt * (2/10) + vi * (5/10)) / (0 + 2/10 + 5/10)) = a :=
      Option.some.inj ha
    have hd := div_range_helper (0 + vt * (2/10) + vi * (5/10)) (0 + 2/10 + 5/10) (by norm_num)
      (by linarith [hv1.1, hv2.1]) (by linarith [hv1.2, hv2.2])
    exact pyRound1_bounds hd.1 hd.2
  · have hv1 := hbt vt ht
    have hv2 := hbi vi hi
    have hv3 := hbr vr hr
    rw [if_pos (by norm_num)] at ha
    obtain rfl : pyRound1 ((0 + vt * (2/10) + vi * (5/10) + vr * (3/10))
        / (0 + 2/10 + 5/10 + 3/10)) = a := Option.some.inj ha
    have hd := div_range_helper (0 + vt * (2/10) + vi * (5/10) + vr * (3/10))
      (0 + 2/10 + 5/10 + 3/10) (by norm_num)
      (by linarith [hv1.1, hv2.1, hv3.1]) (by linarith [hv1.2, hv2.2, hv3.2])
    exact pyRound1_bounds hd.1 hd.2

/-- A sole contributing source aggregates to its own normalized value
rounded to one decimal. -/
theorem aggregate_sole_imdb_general (i : Option (List Char)) (v : ℚ)
    (h : normalize_imdb i = some v) :
    aggregate_ratings none i none = ⟨some (pyRound1 v), [("imdb".toList, v)]⟩ := by
  simp only [aggregate_ratings, normalize_tmdb, normalize_rt, h]
  norm_num

theorem fetchOne_deleteKey (s : Store) (k : List Char) :
    fetchOne (deleteKey s k) k = none := by
  rw [deleteKey, fetchOne, List.find?_eq_none]
  intro x hx
  have h := List.of_mem_filter hx
  simpa using h

theorem getCache_deleteKey (s : Store) (k : List Char) (expiry now : ℚ) :
    getCache (deleteKey s k) k expiry now = none := by
  rw [getCache, fetchOne_deleteKey]

/-- The two SQL statements of `set_cache` in sequence: the INSERT applied to
the DELETEd store is exactly `setCache`. -/
theorem setCache_steps (s : Store) (k : List Char) (v : Json) (now : ℚ) :
    setCache s k v now = insertRow (deleteKey s k) k v now := rfl

/-! ## The claims -/

/-- C1.  `aggregate_ratings` returns, for every combination of a primary
score, a secondary ratio string and a tertiary percent string, a breakdown
holding exactly the sources whose normalization succeeded (each mapped to
its normalized 0–100 value) and an aggregated value
`round(weighted_sum / total_weight, 1)` with weights tmdb 0.2, imdb 0.5,
rt 0.3 summed over only the present sources (this is the refinement
`aggregate_ratings = specAggregate`, the latter written from the spec's
words); in particular `aggregate(8.0, "7.0/10", "90%")` yields breakdown
`{tmdb: 80, imdb: 70, rt: 90}` and aggregated `78.0`, and when all three
inputs fail to normalize the aggregated value is absent and the breakdown
empty. -/
theorem claim_C1_aggregate_contract :
    (∀ (t : Option ℚ) (i r : Option (List Char)),
        aggregate_ratings t i r = specAggregate t i r) ∧
    aggregate_ratings (some 8) (some ("7.0/10".toList)) (some ("90%".toList))
      = ⟨some 78, [("tmdb".toList, 80), ("imdb".toList, 70), ("rt".toList, 90)]⟩ ∧
    aggregate_ratings none none none = ⟨none, []⟩ :=
  ⟨aggregate_ratings_eq_specAggregate, aggregate_all_three, aggregate_all_none⟩

/-- C2.  `get_cache`: a key with no stored entry reads as absent; a stored
entry whose payload text parses reads as the stored value exactly when its
age `now - timestamp` is strictly below the expiry, and as absent when the
age is at least the expiry; and a read (stale or not) never deletes or
modifies any entry — its store transition is the identity. -/
theorem claim_C2_get_cache_expiry (s : Store) (k : List Char) (expiry now : ℚ) :
    (fetchOne s k = none → getCache s k expiry now = none) ∧
    (∀ row (v : Json) (t : List Char), fetchOne s k = some row → row.value = some t →
      t.isEmpty = false → jsonLoads t = some v →
        ((now - row.timestamp < expiry → getCache s k expiry now = some v) ∧
         (expiry ≤ now - row.timestamp → getCache s k expiry now = none))) ∧
    applyOp now s (.get k expiry) = s := by
  refine ⟨fun h => by rw [getCache, h], ?_, rfl⟩
  intro row v t hrow hval hne hloads
  constructor
  · intro hfresh
    rw [getCache, hrow]
    dsimp only
    rw [if_pos hfresh, hval]
    dsimp only
    rw [hne]
    simp only [Bool.false_eq_true, if_false, hloads]
  · intro hstale
    rw [getCache, hrow]
    dsimp only
    rw [if_neg (by linarith)]

/-- Witness for C2 at a concrete store: a fresh read returns the stored
value, a stale read of the same entry returns absent. -/
theorem claim_C2_get_cache_expiry_witness :
    getCache [⟨"k".toList, some ("1".toList), 0⟩] ("k".toList) 10 5 = some (.num 1 0) ∧
    getCache [⟨"k".toList, some ("1".toList), 0⟩] ("k".toList) 10 20 = none := by
  have h1 := (claim_C2_get_cache_expiry [⟨"k".toList, some ("1".toList), 0⟩]
    ("k".toList) 10 5).2.1 ⟨"k".toList, some ("1".toList), 0⟩ (.num 1 0) ("1".toList)
    rfl rfl rfl rfl
  have h2 := (claim_C2_get_cache_expiry [⟨"k".toList, some ("1".toList), 0⟩]
    ("k".toList) 10 20).2.1 ⟨"k".toList, some ("1".toList), 0⟩ (.num 1 0) ("1".toList)
    rfl rfl rfl rfl
  exact ⟨h1.1 (by norm_num), h2.2 (by norm_num)⟩

/-- C3.  `set_cache(key, value)` followed immediately by `get_cache(key,
expiry)` with any strictly positive expiry returns a value deep-equal to
the one set: the JSON serialize-then-parse round trip is the identity on
the stored payload. -/
theorem claim_C3_set_then_get (s : Store) (k : List Char) (v : Json) (expiry now : ℚ)
    (h : 0 < expiry) : getCache (setCache s k v now) k expiry now = some v := by
  rw [getCache_setCache_get, if_pos (by simp [h])]

/-- Witness for C3: a concrete set-then-get round trip. -/
theorem claim_C3_set_then_get_witness :
    (0 : ℚ) < 1 ∧
    getCache (setCache [] ("k".toList) (.arr [.num 1 0, .null]) 0) ("k".toList) 1 0
      = some (.arr [.num 1 0, .null]) :=
  ⟨by norm_num, claim_C3_set_then_get [] ("k".toList) (.arr [.num 1 0, .null]) 1 0 (by norm_num)⟩

/-- C4.  At most one entry exists per key after any sequence of cache
operations (key-uniqueness is preserved by `set`, `get`, `delete` and
`clear`); `set(key, v2)` after `set(key, v1)` leaves exactly one row for
the key, and a subsequent fresh `get(key)` returns `v2`. -/
theorem claim_C4_upsert_invariant :
    (∀ (now : ℚ) (ops : List CacheOp) (s : Store),
        WellKeyed s → WellKeyed (applyOps now s ops)) ∧
    (∀ (s : Store) (k : List Char) (v1 v2 : Json) (n1 n2 : ℚ),
        ((setCache (setCache s k v1 n1) k v2 n2).filter fun r => r.key = k).length = 1) ∧
    (∀ (s : Store) (k : List Char) (v1 v2 : Json) (n1 n2 expiry now' : ℚ),
        now' - n2 < expiry →
        getCache (setCache (setCache s k v1 n1) k v2 n2) k expiry now' = some v2) := by
  refine ⟨fun now ops s h => wellKeyed_applyOps ops s h,
    fun s k v1 v2 n1 n2 => countKey_setCache _ _ _ _,
    fun s k v1 v2 n1 n2 expiry now' h => ?_⟩
  rw [getCache_setCache_get, if_pos h]

/-- Witness for C4 at a concrete op sequence and double write. -/
theorem claim_C4_upsert_invariant_witness :
    WellKeyed (applyOps 0 []
      [.set ("k".toList) (.num 1 0), .set ("k".toList) (.num 2 0), .del ("j".toList)]) ∧
    getCache (setCache (setCache [] ("k".toList) (.num 1 0) 0) ("k".toList) (.num 2 0) 0)
      ("k".toList) 1 0 = some (.num 2 0) :=
  ⟨claim_C4_upsert_invariant.1 0 _ [] (List.Pairwise.nil),
   claim_C4_upsert_invariant.2.2 [] ("k".toList) (.num 1 0) (.num 2 0) 0 0 1 0 (by norm_num)⟩

/-- C5 (counterexample).  As stated over arbitrary inputs the claim fails:
the code never clamps, so `aggregate(20.0, None, None)` produces an
aggregated value of 200 ∉ [0,100]; and a sole contributor's aggregated
value is its normalized value *rounded to one decimal*, so for
`"33.33%"` (normalized 33.33) the aggregated value is 33.3 ≠ 33.33. -/
theorem claim_C5_range_counterexample :
    (aggregate_ratings (some 20) none none).aggregated = some 200 ∧
    ¬ ((200 : ℚ) ≤ 100) ∧
    normalize_rt (some ("33.33%".toList)) = some (3333 / 100) ∧
    (aggregate_ratings none none (some ("33.33%".toList))).aggregated = some (333 / 10) ∧
    (333 / 10 : ℚ) ≠ 3333 / 100 := by
  refine ⟨?_, by norm_num, normalize_rt_3333, aggregate_sole_rt_3333, by norm_num⟩
  rw [aggregate_tmdb_20]

/-- C5 (amended).  When every successfully normalized input lies in the
nominal 0–100 range, a present aggregated value lies in [0,100]; a sole
contributing source's aggregated value is its normalized value rounded to
one decimal — hence equal to the normalized value itself whenever that
value carries at most one decimal, as in the spec's example
`aggregate(None, "8.0/10", None) = 80.0`. -/
theorem claim_C5_range_amended :
    (∀ (t : Option ℚ) (i r : Option (List Char)),
      (∀ v, normalize_tmdb t = some v → 0 ≤ v ∧ v ≤ 100) →
      (∀ v, normalize_imdb i = some v → 0 ≤ v ∧ v ≤ 100) →
      (∀ v, normalize_rt r = some v → 0 ≤ v ∧ v ≤ 100) →
      ∀ a : ℚ, (aggregate_ratings t i r).aggregated = some a → 0 ≤ a ∧ a ≤ 100) ∧
    (∀ (i : Option (List Char)) (v : ℚ), normalize_imdb i = some v →
      aggregate_ratings none i none = ⟨some (pyRound1 v), [("imdb".toList, v)]⟩) ∧
    aggregate_ratings none (some ("8.0/10".toList)) none = ⟨some 80, [("imdb".toList, 80)]⟩ :=
  ⟨aggregate_ratings_range, aggregate_sole_imdb_general, aggregate_sole_imdb⟩

/-- Witness for the amended C5: the sole-contributor clause applied to the
concrete input `"8.0/10"`. -/
theorem claim_C5_range_amended_witness :
    aggregate_ratings none (some ("8.0/10".toList)) none
      = ⟨some (pyRound1 80), [("imdb".toList, 80)]⟩ :=
  claim_C5_range_amended.2.1 (some ("8.0/10".toList)) 80 normalize_imdb_80

/-- C6.  The normalizers: `normalize_tmdb 8.5 = 85`, `normalize_imdb
"7.4/10" = 74` (parse before the slash, scale by 10), `normalize_rt
"95%" = 95` (drop the percent sign, parse as float); each returns absent —
without raising — on absent input and on non-numeric garbage (both at
concrete garbage strings and for every string whose numeric part fails to
parse).  The primary normalizer takes a float, so no garbage input exists
for it beyond absence. -/
theorem claim_C6_normalizers :
    normalize_tmdb (some (17 / 2)) = some 85 ∧
    normalize_imdb (some ("7.4/10".toList)) = some 74 ∧
    normalize_rt (some ("95%".toList)) = some 95 ∧
    normalize_tmdb none = none ∧
    normalize_imdb none = none ∧
    normalize_rt none = none ∧
    normalize_imdb (some ("garbage".toList)) = none ∧
    normalize_imdb (some ("N/A".toList)) = none ∧
    normalize_rt (some ("garbage%".toList)) = none ∧
    normalize_rt (some ("N/A".toList)) = none ∧
    (∀ s : List Char, pyFloatParse (s.takeWhile (· ≠ '/')) = none →
        normalize_imdb (some s) = none) ∧
    (∀ s : List Char, pyFloatParse (pyStrip (s.filter (· ≠ '%'))) = none →
        normalize_rt (some s) = none) :=
  ⟨normalize_tmdb_85, normalize_imdb_74, normalize_rt_95, rfl, rfl, rfl,
   normalize_imdb_none (by decide), normalize_imdb_none (by decide),
   normalize_rt_none (by decide), normalize_rt_none (by decide),
   fun _ h => normalize_imdb_none h, fun _ h => normalize_rt_none h⟩

/-- Witness for C6: the universal garbage clauses applied at `"abc"`. -/
theorem claim_C6_normalizers_witness :
    normalize_imdb (some ("abc".toList)) = none ∧ normalize_rt (some ("abc".toList)) = none :=
  ⟨claim_C6_normalizers.2.2.2.2.2.2.2.2.2.2.1 ("abc".toList) (by decide),
   claim_C6_normalizers.2.2.2.2.2.2.2.2.2.2.2 ("abc".toList) (by decide)⟩

/-- C7 (counterexample).  The claim says a transport error (timeout) or a
malformed 200-response body degrades to absent ratings and the item is
still processed; but `search_movies` only guards the status code: at a
concrete item, a transport error and a malformed 200 body both raise out
of the per-item processing instead of producing a record. -/
theorem claim_C7_omdb_failure_counterexample :
    processItem ⟨none, none, none, none, none, none, none, none⟩ .transportError ⟨[], none⟩
      = .error () ∧
    processItem ⟨none, none, none, none, none, none, none, none⟩ (.resp 200 none) ⟨[], none⟩
      = .error () :=
  ⟨rfl, rfl⟩

/-- C7 (amended).  When the secondary ratings source returns a non-success
status, the search treats all of that source's ratings as absent and
processes the item to completion with no retry and no error: the per-item
result is exactly the one computed from an empty ratings response, with
both raw rating fields absent and the aggregate computed from the primary
score alone.  (A transport error or malformed 200 body instead raises —
see the counterexample.) -/
theorem claim_C7_omdb_failure_amended (item : TmdbItem) (prov : ProvidersInfo) (st : ℕ)
    (body : Option Json) (hst : st ≠ 200) :
    processItem item (.resp st body) prov
      = processItem item (.resp 200 (some (.obj []))) prov ∧
    ∃ rec, processItem item (.resp st body) prov = Except.ok rec ∧
      rec.imdb_rating = none ∧ rec.rotten_tomatoes_rating = none ∧
      rec.aggregated_rating = (aggregate_ratings item.vote_average none none).aggregated := by
  have hfetch : omdbFetch (.resp st body) = .ok (.obj []) := by
    rw [omdbFetch.eq_def]
    simp [hst]
  have hfetch2 : omdbFetch (.resp 200 (some (.obj []))) = .ok (.obj []) := rfl
  have heq : processItem item (.resp st body) prov
      = processItem item (.resp 200 (some (.obj []))) prov := by
    simp only [processItem, hfetch, hfetch2]
  exact ⟨heq, heq ▸ ⟨_, rfl, rfl, rfl, rfl⟩⟩

/-- Witness for the amended C7 at a concrete item and a 500 status. -/
theorem claim_C7_omdb_failure_amended_witness :
    processItem ⟨none, none, none, none, none, some 7, none, none⟩ (.resp 500 (some .null))
        ⟨[], none⟩
      = processItem ⟨none, none, none, none, none, some 7, none, none⟩
          (.resp 200 (some (.obj []))) ⟨[], none⟩ :=
  (claim_C7_omdb_failure_amended ⟨none, none, none, none, none, some 7, none, none⟩
    ⟨[], none⟩ 500 (some .null) (by norm_num)).1

/-- A fresh read of an entry with a parseable, non-empty payload returns
the parsed value. -/
theorem getCache_of_row (s : Store) (k : List Char) (row : CacheRow) (t : List Char)
    (v : Json) (expiry now : ℚ) (hrow : fetchOne s k = some row) (hval : row.value = some t)
    (hne : t.isEmpty = false) (hloads : jsonLoads t = some v)
    (hfresh : now - row.timestamp < expiry) : getCache s k expiry now = some v := by
  rw [getCache, hrow]
  dsimp only
  rw [if_pos hfresh, hval]
  dsimp only
  rw [hne]
  simp only [Bool.false_eq_true, if_false, hloads]

/-- C8.  The result page is sorted by aggregated rating in non-increasing
order with an absent rating treated as 0; the sort is a permutation and is
stable (records with equal keys keep their original relative order), e.g.
aggregated values `[None, 40, 90, 40]` come out `[90, 40, 40, None]` with
the two 40-records in original order; and the upstream pagination metadata
(page number, total pages, total result count) is returned unmodified
whenever the upstream response carries it. -/
theorem claim_C8_sorting_pagination :
    (∀ l : List MovieRecord,
        (sortByRatingDesc l).Perm l ∧
        (sortByRatingDesc l).Sorted (fun a b => sortKey b ≤ sortKey a) ∧
        (∀ q : ℚ, (sortByRatingDesc l).filter (fun r => sortKey r = q)
          = l.filter fun r => sortKey r = q)) ∧
    sortByRatingDesc [exRec 1 none, exRec 2 (some 40), exRec 3 (some 90), exRec 4 (some 40)]
      = [exRec 3 (some 90), exRec 2 (some 40), exRec 4 (some 40), exRec 1 none] ∧
    (∀ (p tp tr pageParam : ℤ) (recs : List MovieRecord),
        (buildSearchResponse (some p) (some tp) (some tr) pageParam recs).page = p ∧
        (buildSearchResponse (some p) (some tp) (some tr) pageParam recs).total_pages = tp ∧
        (buildSearchResponse (some p) (some tp) (some tr) pageParam recs).total_results = tr ∧
        (buildSearchResponse (some p) (some tp) (some tr) pageParam recs).results
          = sortByRatingDesc recs) :=
  ⟨fun l => ⟨sortByRatingDesc_perm l, sortByRatingDesc_sorted l,
      fun q => sortByRatingDesc_stable l q⟩,
   rfl,
   fun _ _ _ _ _ => ⟨rfl, rfl, rfl, rfl⟩⟩

/-- C9 (counterexample).  The claim says a reader concurrent with
`set_cache`'s replace sees either the complete old or the complete new
value and never a state where the key is missing; but the DELETE and
INSERT are two separate statements with no transaction, and a reader
between them finds the key absent: at a concrete store holding `1` under
`"k"`, the read before the delete returns `1`, the read between delete and
insert returns absent — which is neither the old nor the new value — and
the read after the insert returns `2`. -/
theorem claim_C9_atomic_replace_counterexample :
    getCache [⟨"k".toList, some ("1".toList), 0⟩] ("k".toList) 10 1 = some (.num 1 0) ∧
    getCache (deleteKey [⟨"k".toList, some ("1".toList), 0⟩] ("k".toList)) ("k".toList) 10 1
      = none ∧
    getCache (setCache [⟨"k".toList, some ("1".toList), 0⟩] ("k".toList) (.num 2 0) 1)
      ("k".toList) 10 1 = some (.num 2 0) ∧
    (none : Option Json) ≠ some (.num 1 0) ∧
    (none : Option Json) ≠ some (.num 2 0) := by
  refine ⟨getCache_of_row _ _ ⟨"k".toList, some ("1".toList), 0⟩ ("1".toList) (.num 1 0) _ _
      rfl rfl rfl rfl (by norm_num),
    getCache_deleteKey _ _ _ _, ?_, by simp, by simp⟩
  rw [getCache_setCache_get, if_pos (by norm_num)]

/-- C9 (amended).  `set_cache` is delete-then-insert as two separate
statements (`setCache = insertRow ∘ deleteKey`), not wrapped in a
transaction: a reader concurrent with the replace observes the complete
old value (before the delete), the key missing (between the two
statements), or the complete new value (after the insert) — never a torn
mix — and once the set completes a fresh read returns exactly the new
value. -/
theorem claim_C9_atomic_replace_amended (s : Store) (k : List Char) (row : CacheRow)
    (t1 : List Char) (v1 v2 : Json) (now expiry now' : ℚ)
    (hrow : fetchOne s k = some row) (hval : row.value = some t1)
    (hne : t1.isEmpty = false) (hloads : jsonLoads t1 = some v1)
    (hfresh1 : now' - row.timestamp < expiry) (hfresh2 : now' - now < expiry) :
    setCache s k v2 now = insertRow (deleteKey s k) k v2 now ∧
    getCache s k expiry now' = some v1 ∧
    getCache (deleteKey s k) k expiry now' = none ∧
    getCache (setCache s k v2 now) k expiry now' = some v2 := by
  refine ⟨rfl, ?_, getCache_deleteKey _ _ _ _, ?_⟩
  · exact getCache_of_row s k row t1 v1 expiry now' hrow hval hne hloads hfresh1
  · rw [getCache_setCache_get, if_pos hfresh2]

/-- Witness for the amended C9 at a concrete store and write. -/
theorem claim_C9_atomic_replace_amended_witness :
    getCache [⟨"k".toList, some ("1".toList), 0⟩] ("k".toList) 10 1 = some (.num 1 0) ∧
    getCache (deleteKey [⟨"k".toList, some ("1".toList), 0⟩] ("k".toList)) ("k".toList) 10 1
      = none ∧
    getCache (setCache [⟨"k".toList, some ("1".toList), 0⟩] ("k".toList) (.num 2 0) 1)
      ("k".toList) 10 1 = some (.num 2 0) := by
  have h := claim_C9_atomic_replace_amended [⟨"k".toList, some ("1".toList), 0⟩] ("k".toList)
    ⟨"k".toList, some ("1".toList), 0⟩ ("1".toList) (.num 1 0) (.num 2 0) 1 10 1
    rfl rfl rfl rfl (by norm_num) (by norm_num)
  exact ⟨h.2.1, h.2.2.1, h.2.2.2⟩

/-- C10.  A fresh cache hit whose payload is falsy is indistinguishable
from a miss: `get_cache` returns absent when the stored payload text is
NULL or empty even for a fresh entry; and the caller pattern
`if cached: ...` never short-circuits on a cached falsy value — after the
suggest endpoint caches an empty suggestions list, the next request's
cache test is false at every read instant, so the operation proceeds
exactly as on a miss. -/
theorem claim_C10_falsy_cache :
    (∀ (s : Store) (k : List Char) (row : CacheRow) (expiry now : ℚ),
        fetchOne s k = some row → (row.value = none ∨ row.value = some []) →
        getCache s k expiry now = none) ∧
    (∀ (s : Store) (k : List Char) (now expiry now' : ℚ),
        cacheHitTruthy (setCache s k (.arr []) now) k expiry now' = false) := by
  constructor
  · intro s k row expiry now hrow hval
    rw [getCache, hrow]
    dsimp only
    rcases hval with hval | hval <;> rw [hval] <;> split <;> rfl
  · intro s k now expiry now'
    rw [cacheHitTruthy, getCache_setCache_get]
    by_cases h : now' - now < expiry
    · rw [if_pos h]
      rfl
    · rw [if_neg h]

/-- Witness for C10: a fresh NULL-payload row reads as absent, and a
concrete cached empty list does not short-circuit. -/
theorem claim_C10_falsy_cache_witness :
    getCache [⟨"k".toList, none, 0⟩] ("k".toList) 10 1 = none ∧
    cacheHitTruthy (setCache [] ("k".toList) (.arr []) 0) ("k".toList) 10 1 = false :=
  ⟨claim_C10_falsy_cache.1 [⟨"k".toList, none, 0⟩] ("k".toList) ⟨"k".toList, none, 0⟩ 10 1
      rfl (Or.inl rfl),
   claim_C10_falsy_cache.2 [] ("k".toList) 0 10 1⟩

end Bingeworthy
